import Mathlib

/-!
Verification of the Mucab dictionary compiler, loader and Viterbi transliterator.

The Rust sources (`src/lib.rs`, `src/bin/converter.rs`) are shallowly embedded:

* machine integers become `Nat`/`Int` with explicit `% 2^w` at the points where
  the Rust code casts (`as u8`, `as u16`, `as u32`);
* byte streams become `List Nat` (each element `< 256`);
* Rust `String` values become `List Char`; the UTF-8 codec used by
  `String::from_utf8` / `as_bytes` is embedded arithmetically below;
* fallible operations return `Option` / an `Outcome` type whose `panic`
  constructor models a Rust panic (`unwrap`, indexing a missing key) as
  distinct from an `Err` return;
* the zeekstd seekable compression layer is out of scope (the spec treats it
  as an opaque seekable byte stream), so the data segment is modelled as the
  decompressed byte list and the decoder as direct indexing into it.
-/

set_option maxRecDepth 8000

namespace Mucab

/-! ## Little-endian primitives (`u16::to_le_bytes` etc. from the sources) -/

/-- `u16::to_le_bytes` on a value already reduced mod 2^16. -/
def u16Bytes (n : Nat) : List Nat := [n % 256, n / 256 % 256]

/-- `u32::to_le_bytes` on a value already reduced mod 2^32. -/
def u32Bytes (n : Nat) : List Nat :=
  [n % 256, n / 256 % 256, n / 65536 % 256, n / 16777216 % 256]

/-- `u16::from_le_bytes [b0, b1]`. -/
def readU16 (b0 b1 : Nat) : Nat := b0 + 256 * b1

/-- `u32::from_le_bytes [b0, b1, b2, b3]`. -/
def readU32 (b0 b1 b2 b3 : Nat) : Nat :=
  b0 + 256 * b1 + 65536 * b2 + 16777216 * b3

/-- Two's-complement reading of a `u16` bit pattern as `i16`
    (`i16::from_le_bytes`). -/
def i16OfNat (n : Nat) : Int :=
  if n % 65536 < 32768 then (n % 65536 : Int) else (n % 65536 : Int) - 65536

/-- `i16::to_le_bytes` for a value in the `i16` range: the two's-complement
    bit pattern as a `Nat`. -/
def i16ToNat (v : Int) : Nat := (v % 65536).toNat

/-- `i16::to_le_bytes`. -/
def i16Bytes (v : Int) : List Nat := u16Bytes (i16ToNat v)

theorem readU16_u16Bytes (n : Nat) (h : n < 65536) :
    readU16 (n % 256) (n / 256 % 256) = n := by
  simp only [readU16]
  omega

theorem readU32_u32Bytes (n : Nat) (h : n < 4294967296) :
    readU32 (n % 256) (n / 256 % 256) (n / 65536 % 256) (n / 16777216 % 256) = n := by
  simp only [readU32]
  omega

theorem i16OfNat_i16ToNat (v : Int) (h1 : -32768 ≤ v) (h2 : v < 32768) :
    i16OfNat (i16ToNat v) = v := by
  simp only [i16OfNat, i16ToNat]
  omega

theorem i16ToNat_lt (v : Int) : i16ToNat v < 65536 := by
  simp only [i16ToNat]
  omega

/-! ## UTF-8 codec

`String::as_bytes` / `String::from_utf8` from the Rust standard library,
embedded arithmetically over `List Nat`.  Encoding works on Unicode scalar
values (`Char.toNat`); decoding validates ranges, continuation bytes,
overlong forms and surrogates exactly as `from_utf8` does. -/

/-- UTF-8 encoding of one Unicode scalar value. -/
def utf8EncNat (c : Nat) : List Nat :=
  if c < 128 then [c]
  else if c < 2048 then [192 + c / 64, 128 + c % 64]
  else if c < 65536 then [224 + c / 4096, 128 + c / 64 % 64, 128 + c % 64]
  else [240 + c / 262144, 128 + c / 4096 % 64, 128 + c / 64 % 64, 128 + c % 64]

/-- UTF-8 encoding of a string (Rust `str::as_bytes`). -/
def utf8Enc (s : List Char) : List Nat :=
  s.flatMap (fun c => utf8EncNat c.toNat)

/-- Is `b` a UTF-8 continuation byte (`0x80..0xBF`)? -/
def isCont (b : Nat) : Bool := 128 ≤ b && b < 192

/-- Decode one UTF-8 scalar from the front of a byte list, returning the
    scalar and the remaining bytes; `none` on any malformed sequence. -/
def utf8DecNat : List Nat → Option (Nat × List Nat)
  | [] => none
  | b0 :: rest =>
    if b0 < 128 then some (b0, rest)
    else if b0 < 194 then none
    else if b0 < 224 then
      match rest with
      | b1 :: r =>
        if isCont b1 then some ((b0 - 192) * 64 + (b1 - 128), r) else none
      | [] => none
    else if b0 < 240 then
      match rest with
      | b1 :: b2 :: r =>
        if isCont b1 && isCont b2 then
          let v := (b0 - 224) * 4096 + (b1 - 128) * 64 + (b2 - 128)
          if v < 2048 || (55296 ≤ v && v < 57344) then none else some (v, r)
        else none
      | _ => none
    else if b0 < 245 then
      match rest with
      | b1 :: b2 :: b3 :: r =>
        if isCont b1 && isCont b2 && isCont b3 then
          let v := (b0 - 240) * 262144 + (b1 - 128) * 4096 + (b2 - 128) * 64 + (b3 - 128)
          if v < 65536 || 1114112 ≤ v then none else some (v, r)
        else none
      | _ => none
    else none

/-- Fuelled decoding loop for a whole byte list. -/
def utf8DecLoop : Nat → List Nat → Option (List Char)
  | _, [] => some []
  | 0, _ :: _ => none
  | fuel + 1, bs =>
    match utf8DecNat bs with
    | none => none
    | some (c, r) =>
      match utf8DecLoop fuel r with
      | none => none
      | some cs => some (Char.ofNat c :: cs)

/-- `String::from_utf8` (success = valid UTF-8). -/
def utf8Dec (bs : List Nat) : Option (List Char) :=
  utf8DecLoop bs.length bs

theorem utf8DecNat_utf8EncNat (c : Nat) (rest : List Nat)
    (hv : c < 55296 ∨ (57344 ≤ c ∧ c < 1114112)) :
    utf8DecNat (utf8EncNat c ++ rest) = some (c, rest) := by
  simp only [utf8EncNat]
  by_cases h1 : c < 128
  · simp [utf8DecNat, h1]
  · by_cases h2 : c < 2048
    · have hb : ¬ (192 + c / 64 < 128) := by omega
      have hb2 : ¬ (192 + c / 64 < 194) := by omega
      have hb3 : 192 + c / 64 < 224 := by omega
      simp only [h1, h2, if_true, if_false, List.cons_append, List.nil_append, utf8DecNat,
        hb, hb2, hb3, isCont]
      have hc : (128 ≤ 128 + c % 64 && 128 + c % 64 < 192) = true := by
        simp only [Bool.and_eq_true, decide_eq_true_eq]
        omega
      simp only [hc, if_true]
      congr 1
      congr 1
      omega
    · by_cases h3 : c < 65536
      · have hb : ¬ (224 + c / 4096 < 128) := by omega
        have hb2 : ¬ (224 + c / 4096 < 194) := by omega
        have hb3 : ¬ (224 + c / 4096 < 224) := by omega
        have hb4 : 224 + c / 4096 < 240 := by omega
        simp only [h1, h2, h3, if_true, if_false, List.cons_append, List.nil_append,
          utf8DecNat, hb, hb2, hb3, hb4, isCont]
        have hc1 : (128 ≤ 128 + c / 64 % 64 && 128 + c / 64 % 64 < 192) = true := by
          simp only [Bool.and_eq_true, decide_eq_true_eq]; omega
        have hc2 : (128 ≤ 128 + c % 64 && 128 + c % 64 < 192) = true := by
          simp only [Bool.and_eq_true, decide_eq_true_eq]; omega
        simp only [hc1, hc2, Bool.and_self, if_true, Bool.true_and]
        have hval : (224 + c / 4096 - 224) * 4096 + (128 + c / 64 % 64 - 128) * 64 +
            (128 + c % 64 - 128) = c := by omega
        rw [hval]
        have hge : ¬ (c < 2048 || (55296 ≤ c && c < 57344)) = true := by
          simp only [Bool.or_eq_true, Bool.and_eq_true, decide_eq_true_eq]
          omega
        simp only [Bool.not_eq_true] at hge
        simp [hge]
      · have hcv : c < 1114112 := by omega
        have hb : ¬ (240 + c / 262144 < 128) := by omega
        have hb2 : ¬ (240 + c / 262144 < 194) := by omega
        have hb3 : ¬ (240 + c / 262144 < 224) := by omega
        have hb4 : ¬ (240 + c / 262144 < 240) := by omega
        have hb5 : 240 + c / 262144 < 245 := by omega
        simp only [h1, h2, h3, if_true, if_false, List.cons_append, List.nil_append,
          utf8DecNat, hb, hb2, hb3, hb4, hb5, isCont]
        have hc1 : (128 ≤ 128 + c / 4096 % 64 && 128 + c / 4096 % 64 < 192) = true := by
          simp only [Bool.and_eq_true, decide_eq_true_eq]; omega
        have hc2 : (128 ≤ 128 + c / 64 % 64 && 128 + c / 64 % 64 < 192) = true := by
          simp only [Bool.and_eq_true, decide_eq_true_eq]; omega
        have hc3 : (128 ≤ 128 + c % 64 && 128 + c % 64 < 192) = true := by
          simp only [Bool.and_eq_true, decide_eq_true_eq]; omega
        simp only [hc1, hc2, hc3, Bool.and_self, if_true, Bool.true_and]
        have hval : (240 + c / 262144 - 240) * 262144 + (128 + c / 4096 % 64 - 128) * 4096 +
            (128 + c / 64 % 64 - 128) * 64 + (128 + c % 64 - 128) = c := by omega
        rw [hval]
        have hge : ¬ (c < 65536 || 1114112 ≤ c) = true := by
          simp only [Bool.or_eq_true, decide_eq_true_eq]
          omega
        simp only [Bool.not_eq_true] at hge
        simp [hge]

theorem char_scalar_valid (c : Char) :
    c.toNat < 55296 ∨ (57344 ≤ c.toNat ∧ c.toNat < 1114112) := by
  have h := c.valid
  unfold UInt32.isValidChar Nat.isValidChar at h
  have hc : c.toNat = c.val.toNat := rfl
  rw [hc]
  rcases h with h | ⟨h1, h2⟩
  · left; exact h
  · right; exact ⟨h1, h2⟩

theorem utf8EncNat_length_pos (c : Nat) : 0 < (utf8EncNat c).length := by
  simp only [utf8EncNat]
  split <;> simp_all
  split <;> simp_all
  split <;> simp_all

theorem utf8DecLoop_utf8Enc (s : List Char) (fuel : Nat)
    (h : (utf8Enc s).length ≤ fuel) :
    utf8DecLoop fuel (utf8Enc s) = some s := by
  induction s generalizing fuel with
  | nil =>
    cases fuel <;> simp [utf8Enc, utf8DecLoop]
  | cons c cs ih =>
    have henc : utf8Enc (c :: cs) = utf8EncNat c.toNat ++ utf8Enc cs := by
      simp [utf8Enc]
    have hpos : 0 < (utf8Enc (c :: cs)).length := by
      rw [henc, List.length_append]
      have := utf8EncNat_length_pos c.toNat
      omega
    obtain ⟨f, rfl⟩ : ∃ f, fuel = f + 1 := by
      cases fuel
      · omega
      · exact ⟨_, rfl⟩
    have hne : utf8Enc (c :: cs) ≠ [] := by
      intro hnil
      rw [hnil] at hpos
      simp at hpos
    obtain ⟨b, bs, hbs⟩ : ∃ b bs, utf8Enc (c :: cs) = b :: bs := by
      cases hx : utf8Enc (c :: cs) with
      | nil => exact absurd hx hne
      | cons b bs => exact ⟨b, bs, rfl⟩
    rw [hbs]
    simp only [utf8DecLoop]
    rw [← hbs, henc, utf8DecNat_utf8EncNat c.toNat (utf8Enc cs) (char_scalar_valid c)]
    have hrest : (utf8Enc cs).length ≤ f := by
      rw [henc, List.length_append] at h
      have := utf8EncNat_length_pos c.toNat
      omega
    simp only [ih f hrest, Char.ofNat_toNat]

theorem utf8Dec_utf8Enc (s : List Char) : utf8Dec (utf8Enc s) = some s :=
  utf8DecLoop_utf8Enc s (utf8Enc s).length le_rfl

/-! ## Compiler: string-pool suffix-overlap packing (`write_binary`, converter.rs)

The Rust loop over `start in search_start..strings_data.len()` scans candidate
suffix starts from the longest candidate suffix downwards and stops at the
first (hence longest) suffix of the pool that is a prefix of the reading. -/

/-- One iteration sweep of the overlap-search loop: `start` is the candidate
    position in `pool`; returns the first (longest) overlap found, 0 if none.
    The loop runs while `start < pool.length`; `fuel` is instantiated with
    exactly the number of remaining iterations (`pool.length - start`), making
    the recursion structural. -/
def findOverlapAux (pool reading : List Nat) : Nat → Nat → Nat
  | 0, _ => 0
  | fuel + 1, start =>
    if start < pool.length then
      if pool.length - start > reading.length then
        findOverlapAux pool reading fuel (start + 1)
      else if pool.drop start = reading.take (pool.length - start) then
        pool.length - start
      else
        findOverlapAux pool reading fuel (start + 1)
    else 0

/-- `best_overlap` as computed by `write_binary`: the scan starts at
    `strings_data.len().saturating_sub(reading_bytes.len())`. -/
def findOverlap (pool reading : List Nat) : Nat :=
  findOverlapAux pool reading (pool.length - (pool.length - reading.length))
    (pool.length - reading.length)

/-- All properties of the overlap scan at once, by descending induction on the
    remaining scan range: the result is a genuine overlap (the pool ends with
    that many leading bytes of the reading), bounded by both lengths, and it is
    the longest overlap reachable from `start`. -/
theorem findOverlapAux_all (pool reading : List Nat) :
    ∀ fuel start, pool.length - start = fuel →
      findOverlapAux pool reading fuel start ≤ reading.length ∧
      findOverlapAux pool reading fuel start ≤ pool.length - start ∧
      pool.drop (pool.length - findOverlapAux pool reading fuel start) =
        reading.take (findOverlapAux pool reading fuel start) ∧
      ∀ k, k ≤ reading.length → k ≤ pool.length - start →
        pool.drop (pool.length - k) = reading.take k →
        k ≤ findOverlapAux pool reading fuel start := by
  intro fuel
  induction fuel with
  | zero =>
    intro start hn
    rw [findOverlapAux]
    refine ⟨Nat.zero_le _, Nat.zero_le _, by simp, ?_⟩
    intro k _ hk2 _
    omega
  | succ n ih =>
    intro start hn
    have hlt : start < pool.length := by omega
    have hrec : pool.length - (start + 1) = n := by omega
    obtain ⟨ih1, ih2, ih3, ih4⟩ := ih (start + 1) hrec
    rw [findOverlapAux]
    simp only [hlt, if_pos]
    by_cases h1 : pool.length - start > reading.length
    · simp only [h1, if_pos]
      refine ⟨ih1, by omega, ih3, ?_⟩
      intro k hk1 hk2 hgood
      exact ih4 k hk1 (by omega) hgood
    · simp only [h1, if_neg, if_false]
      by_cases h2 : pool.drop start = reading.take (pool.length - start)
      · simp only [h2, if_pos]
        refine ⟨by omega, le_rfl, ?_, ?_⟩
        · have hs : pool.length - (pool.length - start) = start := by omega
          rw [hs]
          exact h2
        · intro k _ hk2 _
          exact hk2
      · simp only [h2, if_neg, if_false]
        refine ⟨ih1, by omega, ih3, ?_⟩
        intro k hk1 hk2 hgood
        apply ih4 k hk1 ?_ hgood
        rcases Nat.lt_or_ge k (pool.length - start) with h | h
        · omega
        · exfalso
          have hkeq : k = pool.length - start := by omega
          apply h2
          rw [← hkeq]
          have hs : start = pool.length - k := by omega
          rw [hs]
          exact hgood

theorem findOverlap_le_reading (pool reading : List Nat) :
    findOverlap pool reading ≤ reading.length :=
  (findOverlapAux_all pool reading _ _ rfl).1

theorem findOverlap_le_pool (pool reading : List Nat) :
    findOverlap pool reading ≤ pool.length := by
  have h := (findOverlapAux_all pool reading _ (pool.length - reading.length) rfl).2.1
  unfold findOverlap
  omega

theorem findOverlap_spec (pool reading : List Nat) :
    pool.drop (pool.length - findOverlap pool reading) =
      reading.take (findOverlap pool reading) :=
  (findOverlapAux_all pool reading _ _ rfl).2.2.1

theorem findOverlap_max (pool reading : List Nat) (k : Nat)
    (hk1 : k ≤ reading.length) (hk2 : k ≤ pool.length)
    (hgood : pool.drop (pool.length - k) = reading.take k) :
    k ≤ findOverlap pool reading :=
  (findOverlapAux_all pool reading _ _ rfl).2.2.2 k hk1 (by omega) hgood

/-! ## Compiler data model (converter.rs) -/

/-- converter.rs `Entry`: one accepted CSV record. `pos_id` is `u16`-valued,
    `cost` is `i16`-valued; strings are `List Char`. -/
structure Entry where
  surface : List Char
  pos_id : Nat
  cost : Int
  reading : List Char
deriving DecidableEq

/-- One element of `write_binary`'s `entry_records` vector:
    `(surface bytes, reading_offset : u32, reading_len : u8, pos_id, cost)`.
    The `u32` / `u8` casts of the Rust code are applied on construction. -/
structure EntryRec where
  surf : List Nat
  readOff : Nat
  readLen : Nat
  pos_id : Nat
  cost : Int
deriving DecidableEq

/-- The body of `write_binary`'s first loop: pack one entry's reading into the
    string pool with suffix-overlap coalescing and record its metadata. -/
def stepRecord (acc : List Nat × List EntryRec) (e : Entry) : List Nat × List EntryRec :=
  let pool := acc.1
  let rb := utf8Enc e.reading
  let ov := findOverlap pool rb
  let record : EntryRec :=
    ⟨utf8Enc e.surface, (pool.length - ov) % 4294967296, rb.length % 256, e.pos_id, e.cost⟩
  (pool ++ rb.drop ov, acc.2 ++ [record])

/-- `write_binary`'s first loop: returns `(strings_data, entry_records)`. -/
def buildRecords (entries : List Entry) : List Nat × List EntryRec :=
  entries.foldl stepRecord ([], [])

theorem foldl_stepRecord_state (xs : List Entry) :
    ∀ p rs, (xs.foldl stepRecord (p, rs)).1 = (xs.foldl stepRecord (p, [])).1 ∧
      (xs.foldl stepRecord (p, rs)).2 = rs ++ (xs.foldl stepRecord (p, [])).2 := by
  induction xs with
  | nil => intro p rs; simp
  | cons e xs ih =>
    intro p rs
    simp only [List.foldl_cons]
    have h1 := ih (stepRecord (p, rs) e).1 (stepRecord (p, rs) e).2
    have h2 := ih (stepRecord (p, []) e).1 (stepRecord (p, []) e).2
    have hfst : (stepRecord (p, rs) e).1 = (stepRecord (p, []) e).1 := rfl
    have hsnd : (stepRecord (p, rs) e).2 = rs ++ (stepRecord (p, []) e).2 := by
      simp [stepRecord]
    constructor
    · rw [h1.1, hfst, ← h2.1]
    · rw [h1.2, hsnd, h2.2]
      rw [← h2.2, hfst]
      have h3 := ih (stepRecord (p, []) e).1 (stepRecord (p, []) e).2
      rw [h3.2, List.append_assoc]

theorem foldl_stepRecord_pool_extend (xs : List Entry) :
    ∀ p rs, ∃ q, (xs.foldl stepRecord (p, rs)).1 = p ++ q := by
  induction xs with
  | nil => intro p rs; exact ⟨[], by simp⟩
  | cons e xs ih =>
    intro p rs
    obtain ⟨q, hq⟩ := ih (stepRecord (p, rs) e).1 (stepRecord (p, rs) e).2
    refine ⟨(utf8Enc e.reading).drop (findOverlap p (utf8Enc e.reading)) ++ q, ?_⟩
    simp only [List.foldl_cons]
    rw [hq]
    simp [stepRecord]

theorem foldl_stepRecord_length (xs : List Entry) :
    ∀ p rs, (xs.foldl stepRecord (p, rs)).2.length = rs.length + xs.length := by
  induction xs with
  | nil => intro p rs; simp
  | cons e xs ih =>
    intro p rs
    simp only [List.foldl_cons]
    rw [ih]
    simp [stepRecord]
    omega

theorem buildRecords_length (entries : List Entry) :
    (buildRecords entries).2.length = entries.length := by
  have := foldl_stepRecord_length entries [] []
  rw [buildRecords]
  simp only [List.length_nil] at this
  omega

theorem buildRecords_take_succ (entries : List Entry) (i : Nat) (h : i < entries.length) :
    buildRecords (entries.take (i + 1)) =
      stepRecord (buildRecords (entries.take i)) entries[i] := by
  have htake : entries.take (i + 1) = entries.take i ++ [entries[i]] := by
    have := List.take_concat_get entries i h
    rw [List.concat_eq_append] at this
    exact this.symm
  rw [buildRecords, htake, List.foldl_append]
  simp [buildRecords]

theorem buildRecords_split (entries : List Entry) (i : Nat) :
    buildRecords entries =
      (entries.drop i).foldl stepRecord (buildRecords (entries.take i)) := by
  conv_lhs => rw [buildRecords, ← List.take_append_drop i entries]
  rw [List.foldl_append]
  rfl

/-- The pool only grows during the records loop. -/
theorem buildRecords_pool_prefix (entries : List Entry) (i : Nat) :
    ∃ q, (buildRecords entries).1 = (buildRecords (entries.take i)).1 ++ q := by
  rw [buildRecords_split entries i]
  obtain ⟨q, hq⟩ := foldl_stepRecord_pool_extend (entries.drop i)
    (buildRecords (entries.take i)).1 (buildRecords (entries.take i)).2
  exact ⟨q, hq⟩

/-- The records list only grows during the records loop. -/
theorem buildRecords_recs_extend (entries : List Entry) (i : Nat) :
    ∃ q, (buildRecords entries).2 = (buildRecords (entries.take i)).2 ++ q := by
  rw [buildRecords_split entries i]
  obtain ⟨_, h⟩ := foldl_stepRecord_state (entries.drop i)
    (buildRecords (entries.take i)).1 (buildRecords (entries.take i)).2
  exact ⟨_, h⟩

/-- Default entry used for total indexing. -/
def defEntry : Entry := ⟨[], 0, 0, []⟩

/-- Default record used for total indexing. -/
def defRec : EntryRec := ⟨[], 0, 0, 0, 0⟩

/-- Characterization of the `i`-th element of `entry_records`: it is built
    from the pool state after the first `i` entries. -/
theorem buildRecords_getD (entries : List Entry) (i : Nat) (hi : i < entries.length) :
    (buildRecords entries).2.getD i defRec =
      ⟨utf8Enc (entries.getD i defEntry).surface,
       ((buildRecords (entries.take i)).1.length -
          findOverlap (buildRecords (entries.take i)).1
            (utf8Enc (entries.getD i defEntry).reading)) % 4294967296,
       (utf8Enc (entries.getD i defEntry).reading).length % 256,
       (entries.getD i defEntry).pos_id,
       (entries.getD i defEntry).cost⟩ := by
  obtain ⟨q, hq⟩ := buildRecords_recs_extend entries (i + 1)
  have hstep := buildRecords_take_succ entries i hi
  have hleni : (buildRecords (entries.take i)).2.length = i := by
    rw [buildRecords_length, List.length_take]
    omega
  have hsnd : (buildRecords (entries.take (i + 1))).2 =
      (buildRecords (entries.take i)).2 ++
        [⟨utf8Enc entries[i].surface,
          ((buildRecords (entries.take i)).1.length -
            findOverlap (buildRecords (entries.take i)).1 (utf8Enc entries[i].reading)) %
              4294967296,
          (utf8Enc entries[i].reading).length % 256,
          entries[i].pos_id, entries[i].cost⟩] := by
    rw [hstep]
    rfl
  have hgetd : entries.getD i defEntry = entries[i] := List.getD_eq_getElem entries defEntry hi
  rw [hq, hsnd, hgetd]
  rw [List.append_assoc]
  rw [List.getD_eq_getElem _ _ (by simp; omega)]
  rw [List.getElem_append_right (by omega)]
  simp [hleni]

/-- The slice of the final pool addressed by record `i` holds exactly the
    reading's bytes. -/
theorem buildRecords_segment (entries : List Entry) (i : Nat) (hi : i < entries.length) :
    ((buildRecords entries).1.drop
        ((buildRecords (entries.take i)).1.length -
          findOverlap (buildRecords (entries.take i)).1
            (utf8Enc (entries.getD i defEntry).reading))).take
        (utf8Enc (entries.getD i defEntry).reading).length =
      utf8Enc (entries.getD i defEntry).reading ∧
    ((buildRecords (entries.take i)).1.length -
        findOverlap (buildRecords (entries.take i)).1
          (utf8Enc (entries.getD i defEntry).reading)) +
        (utf8Enc (entries.getD i defEntry).reading).length ≤
      (buildRecords entries).1.length := by
  have hgetd : entries.getD i defEntry = entries[i] := List.getD_eq_getElem entries defEntry hi
  rw [hgetd]
  set p := (buildRecords (entries.take i)).1 with hp
  set rb := utf8Enc entries[i].reading with hrb
  set ov := findOverlap p rb with hov
  have hovp : ov ≤ p.length := findOverlap_le_pool p rb
  have hnext : (buildRecords (entries.take (i + 1))).1 = p ++ rb.drop ov := by
    rw [buildRecords_take_succ entries i hi]
    rfl
  have hdropnext : (buildRecords (entries.take (i + 1))).1.drop (p.length - ov) = rb := by
    rw [hnext, List.drop_append_of_le_length (by omega)]
    rw [findOverlap_spec p rb, ← hov, List.take_append_drop]
  have hlennext : (buildRecords (entries.take (i + 1))).1.length = (p.length - ov) + rb.length := by
    have hd := congrArg List.length hdropnext
    rw [List.length_drop] at hd
    rw [hnext] at hd ⊢
    simp only [List.length_append] at hd ⊢
    omega
  obtain ⟨q, hq⟩ := buildRecords_pool_prefix entries (i + 1)
  constructor
  · rw [hq, List.drop_append_of_le_length (by omega), hdropnext]
    rw [List.take_append_of_le_length ?hle, List.take_length]
    case hle => exact le_rfl
  · rw [hq, List.length_append]
    omega

/-- C8: the string-pool packing of `write_binary` is correct.  For entry `i`
    (with the compiler's guarantee that the reading is at most 255 bytes and
    the pool fits in a `u32`): the overlap used is a genuine suffix of the
    current pool equal to a prefix of the reading and is the longest such,
    `reading_offset` is the pool length minus the overlap, only the
    non-overlapping tail is appended, and the final pool holds the reading's
    bytes at `[reading_offset, reading_offset + reading_len)`, which lies
    inside the pool. -/
theorem claim_C8 (entries : List Entry) (i : Nat) (hi : i < entries.length)
    (hrd : (utf8Enc (entries.getD i defEntry).reading).length ≤ 255)
    (hpool : (buildRecords (entries.take i)).1.length < 4294967296) :
    ((buildRecords (entries.take i)).1.drop
        ((buildRecords (entries.take i)).1.length -
          findOverlap (buildRecords (entries.take i)).1
            (utf8Enc (entries.getD i defEntry).reading)) =
      (utf8Enc (entries.getD i defEntry).reading).take
        (findOverlap (buildRecords (entries.take i)).1
          (utf8Enc (entries.getD i defEntry).reading))) ∧
    (∀ k, k ≤ (utf8Enc (entries.getD i defEntry).reading).length →
      k ≤ (buildRecords (entries.take i)).1.length →
      (buildRecords (entries.take i)).1.drop ((buildRecords (entries.take i)).1.length - k) =
        (utf8Enc (entries.getD i defEntry).reading).take k →
      k ≤ findOverlap (buildRecords (entries.take i)).1
            (utf8Enc (entries.getD i defEntry).reading)) ∧
    ((buildRecords entries).2.getD i defRec).readOff =
      (buildRecords (entries.take i)).1.length -
        findOverlap (buildRecords (entries.take i)).1
          (utf8Enc (entries.getD i defEntry).reading) ∧
    ((buildRecords entries).2.getD i defRec).readLen =
      (utf8Enc (entries.getD i defEntry).reading).length ∧
    (buildRecords (entries.take (i + 1))).1 =
      (buildRecords (entries.take i)).1 ++
        (utf8Enc (entries.getD i defEntry).reading).drop
          (findOverlap (buildRecords (entries.take i)).1
            (utf8Enc (entries.getD i defEntry).reading)) ∧
    ((buildRecords entries).1.drop ((buildRecords entries).2.getD i defRec).readOff).take
        (((buildRecords entries).2.getD i defRec).readLen) =
      utf8Enc (entries.getD i defEntry).reading ∧
    ((buildRecords entries).2.getD i defRec).readOff +
        ((buildRecords entries).2.getD i defRec).readLen ≤
      (buildRecords entries).1.length := by
  have hget := buildRecords_getD entries i hi
  have hseg := buildRecords_segment entries i hi
  have hgetd : entries.getD i defEntry = entries[i] := List.getD_eq_getElem entries defEntry hi
  have hoffmod : ((buildRecords (entries.take i)).1.length -
      findOverlap (buildRecords (entries.take i)).1
        (utf8Enc (entries.getD i defEntry).reading)) % 4294967296 =
      (buildRecords (entries.take i)).1.length -
        findOverlap (buildRecords (entries.take i)).1
          (utf8Enc (entries.getD i defEntry).reading) := by
    apply Nat.mod_eq_of_lt
    omega
  have hlenmod : (utf8Enc (entries.getD i defEntry).reading).length % 256 =
      (utf8Enc (entries.getD i defEntry).reading).length := by
    apply Nat.mod_eq_of_lt
    omega
  refine ⟨findOverlap_spec _ _, ?_, ?_, ?_, ?_, ?_, ?_⟩
  · intro k hk1 hk2 hgood
    exact findOverlap_max _ _ k hk1 hk2 hgood
  · rw [hget]
    exact hoffmod
  · rw [hget]
    exact hlenmod
  · rw [buildRecords_take_succ entries i hi, hgetd]
    rfl
  · rw [hget]
    simp only [hoffmod, hlenmod]
    exact hseg.1
  · rw [hget]
    simp only [hoffmod, hlenmod]
    exact hseg.2

/-- Demo entries used by the concrete witnesses. -/
def demoE1 : Entry := ⟨['山'], 0, 100, ['や', 'ま']⟩

/-- Second demo entry; its reading's first byte sequence overlaps the tail of
    the first one's, exercising the coalescing path. -/
def demoE2 : Entry := ⟨['林'], 1, 50, ['ま', 'き']⟩

theorem claim_C8_witness :
    1 < ([demoE1, demoE2] : List Entry).length ∧
    ((buildRecords [demoE1, demoE2]).2.getD 1 defRec).readOff +
        ((buildRecords [demoE1, demoE2]).2.getD 1 defRec).readLen ≤
      (buildRecords [demoE1, demoE2]).1.length :=
  ⟨by decide, (claim_C8 [demoE1, demoE2] 1 (by decide) (by decide) (by decide)).2.2.2.2.2.2⟩

/-! ## `Dictionary::get_matrix_cost` (lib.rs) -/

/-- lib.rs `get_matrix_cost`: flat row-major lookup with `unwrap_or(0)` on the
    flattened index only. -/
def get_matrix_cost (matrix : List Int) (matrix_size prev_id curr_id : Nat) : Int :=
  matrix.getD (prev_id * matrix_size + curr_id) 0

/-- C3 counterexample: with `S = 2` and stored matrix `M[1][0] = 7`, the call
    `get_matrix_cost(prev = 0, curr = 2)` has `curr ≥ S` yet returns the
    aliased cell `M[1][0] = 7`, not 0 as the claim states. -/
theorem claim_C3_cx :
    2 ≤ 2 ∧ get_matrix_cost [0, 0, 7, 0] 2 0 2 = 7 ∧
      ¬ get_matrix_cost [0, 0, 7, 0] 2 0 2 = 0 := by
  refine ⟨le_rfl, ?_, ?_⟩ <;> decide

/-- C3 (amended): `get_matrix_cost` returns the flat cell at
    `prev * S + curr` when that index is inside the `S²`-element table and 0
    otherwise.  Consequently `prev ≥ S` always yields 0, and in-range pairs
    yield the stored cell `M[prev][curr]`; but `curr ≥ S` with
    `prev * S + curr < S²` yields an aliased in-table cell instead of 0. -/
theorem claim_C3 (matrix : List Int) (S : Nat) (h : matrix.length = S * S) :
    (∀ prev curr, S ≤ prev → get_matrix_cost matrix S prev curr = 0) ∧
    (∀ prev curr, prev < S → curr < S →
      ∃ hb : prev * S + curr < matrix.length,
        get_matrix_cost matrix S prev curr = matrix.get ⟨prev * S + curr, hb⟩) ∧
    (∀ prev curr, S * S ≤ prev * S + curr → get_matrix_cost matrix S prev curr = 0) := by
  have hbound : ∀ prev curr, prev < S → curr < S → prev * S + curr < S * S := by
    intro prev curr hp hc
    calc prev * S + curr < prev * S + S := by omega
    _ = (prev + 1) * S := by ring
    _ ≤ S * S := Nat.mul_le_mul_right S (by omega)
  refine ⟨?_, ?_, ?_⟩
  · intro prev curr hp
    apply List.getD_eq_default
    rw [h]
    have : S * S ≤ prev * S := Nat.mul_le_mul_right S hp
    omega
  · intro prev curr hp hc
    have hb : prev * S + curr < matrix.length := by rw [h]; exact hbound prev curr hp hc
    refine ⟨hb, ?_⟩
    rw [get_matrix_cost, List.getD_eq_getElem matrix 0 hb]
    rfl
  · intro prev curr hge
    apply List.getD_eq_default
    omega

theorem claim_C3_witness :
    ([1, 2, 3, 4] : List Int).length = 2 * 2 ∧
      get_matrix_cost [1, 2, 3, 4] 2 5 0 = 0 :=
  ⟨by decide, (claim_C3 [1, 2, 3, 4] 2 (by decide)).1 5 0 (by decide)⟩

/-! ## Compiler CSV record processing (converter.rs `process_csv_files`)

`str::parse::<i32>` from the Rust standard library is embedded below: an
optional sign followed by one or more ASCII digits, failing on any other
character and on values outside the `i32` range. -/

/-- Accumulate decimal digits; fails on the first non-digit. -/
def parseDigitsGo (acc : Nat) : List Char → Option Nat
  | [] => some acc
  | c :: rest =>
    if '0' ≤ c ∧ c ≤ '9' then parseDigitsGo (acc * 10 + (c.toNat - 48)) rest
    else none

/-- A nonempty all-digit string parsed as a `Nat`. -/
def parseDigits : List Char → Option Nat
  | [] => none
  | l => parseDigitsGo 0 l

/-- Rust `str::parse::<i32>`. -/
def parse_i32 (s : List Char) : Option Int :=
  match s with
  | '+' :: rest =>
    match parseDigits rest with
    | none => none
    | some n => if (n : Int) ≤ 2147483647 then some (n : Int) else none
  | '-' :: rest =>
    match parseDigits rest with
    | none => none
    | some n => if (n : Int) ≤ 2147483648 then some (-(n : Int)) else none
  | _ =>
    match parseDigits s with
    | none => none
    | some n => if (n : Int) ≤ 2147483647 then some (n : Int) else none

/-- Result of processing one CSV line in `process_csv_files`:
    `skip` = `continue`, `fatal` = `assert_eq!` failure, `keep` = the record
    pushed onto `entries` (before pos-id interning). -/
inductive LineResult where
  | skip : LineResult
  | fatal : LineResult
  | keep : List Char → List Char → Int → List Char → LineResult
deriving DecidableEq

/-- The per-line filtering of `process_csv_files`.  `han` abstracts the
    external `^\p{Han}+` regex match on the surface. -/
def processLine (han : List Char → Bool) (parts : List (List Char)) : LineResult :=
  if parts.length < 13 then .skip
  else if han (parts.getD 0 []) = false then .skip
  else if 255 < (utf8Enc (parts.getD 0 [])).length then .skip
  else if parts.getD 1 [] = parts.getD 2 [] then
    (if (parse_i32 (parts.getD 3 [])).getD 0 < -32768 ∨
        32767 < (parse_i32 (parts.getD 3 [])).getD 0 then .skip
     else if 255 < (utf8Enc (parts.getD 12 [])).length then .skip
     else .keep (parts.getD 0 []) (parts.getD 1 [])
       ((parse_i32 (parts.getD 3 [])).getD 0) (parts.getD 12 []))
  else .fatal

/-- C7 counterexample: a record whose cost field does not parse as an `i32`
    (`"abc"`) is NOT skipped — `parse().unwrap_or(0)` keeps it with word cost
    0, which is not a value written in field 3. -/
theorem claim_C7_cx :
    parse_i32 ['a', 'b', 'c'] = none ∧
    processLine (fun _ => true)
        [['山'], ['5'], ['5'], ['a', 'b', 'c'], [], [], [], [], [], [], [], [], ['や']] =
      LineResult.keep ['山'] ['5'] 0 ['や'] := by
  constructor <;> decide

/-- C7 (amended): for a record passing the earlier filters, field 3 is parsed
    as an `i32` **defaulting to 0 on parse failure** (`unwrap_or(0)`); if the
    resulting value is not representable as `i16` the record is skipped,
    otherwise it is kept (subject to the later reading-length filter) with
    exactly that value as its word cost.  So an emitted record's cost equals
    field 3's value whenever field 3 parses in the `i16` range, but an
    unparseable field 3 yields an emitted cost of 0. -/
theorem claim_C7 (han : List Char → Bool) (parts : List (List Char))
    (hlen : 13 ≤ parts.length) (hhan : han (parts.getD 0 []) = true)
    (hsurf : (utf8Enc (parts.getD 0 [])).length ≤ 255)
    (hctx : parts.getD 1 [] = parts.getD 2 []) :
    (((parse_i32 (parts.getD 3 [])).getD 0 < -32768 ∨
        32767 < (parse_i32 (parts.getD 3 [])).getD 0) →
      processLine han parts = .skip) ∧
    (-32768 ≤ (parse_i32 (parts.getD 3 [])).getD 0 →
      (parse_i32 (parts.getD 3 [])).getD 0 ≤ 32767 →
      (utf8Enc (parts.getD 12 [])).length ≤ 255 →
      processLine han parts =
        .keep (parts.getD 0 []) (parts.getD 1 []) ((parse_i32 (parts.getD 3 [])).getD 0)
          (parts.getD 12 [])) ∧
    (∀ s l c r, processLine han parts = .keep s l c r →
      c = (parse_i32 (parts.getD 3 [])).getD 0) := by
  have hhf : ¬ han (parts.getD 0 []) = false := by rw [hhan]; simp
  refine ⟨?_, ?_, ?_⟩
  · intro hrange
    rw [processLine]
    split_ifs with h1 h2 h3 h4 h5 h6 <;>
      first
        | rfl
        | (exfalso; omega)
        | (exact absurd h2 hhf)
        | (exact absurd hctx h4)
  · intro h1 h2 h3
    rw [processLine]
    split_ifs with g1 g2 g3 g4 g5 g6 <;>
      first
        | rfl
        | (exfalso; omega)
        | (exact absurd g2 hhf)
        | (exact absurd hctx g4)
  · intro s l c r hkeep
    rw [processLine] at hkeep
    split_ifs at hkeep <;> cases hkeep <;> rfl

theorem claim_C7_witness :
    13 ≤ ([['山'], ['1'], ['1'], ['1', '2', '0'], [], [], [], [], [], [], [], [], ['や']] :
        List (List Char)).length ∧
    processLine (fun _ => true)
        [['山'], ['1'], ['1'], ['1', '2', '0'], [], [], [], [], [], [], [], [], ['や']] =
      LineResult.keep ['山'] ['1'] 120 ['や'] := by
  refine ⟨by decide, ?_⟩
  have h := (claim_C7 (fun _ => true)
    [['山'], ['1'], ['1'], ['1', '2', '0'], [], [], [], [], [], [], [], [], ['や']]
    (by decide) (by decide) (by decide) (by decide)).2.1 (by decide) (by decide) (by decide)
  rw [h]
  decide

/-! ## Runtime dictionary model (lib.rs)

`RtDict` models a loaded `Dictionary` as seen by `lookup`/`transliterate`
after bulk reads succeed: `index` fuses the first-character index with the
per-character entry blocks it addresses (= the fully populated `entry_cache`),
`pool` is the decompressed strings segment relative to `strings_offset`.
The byte-level `Dictionary::load`/`bulk_read_entries` are modelled separately
below and connected through the round-trip theorem. -/

/-- lib.rs `DictEntry`. -/
structure DictEntryRt where
  surface : List Char
  pos_id : Nat
  word_cost : Int
  reading_offset : Nat
  reading_len : Nat
deriving DecidableEq

/-- The in-memory dictionary used by the segmenter. -/
structure RtDict where
  index : List (Char × List DictEntryRt)
  matrix : List Int
  matrix_size : Nat
  pool : List Nat
deriving DecidableEq

/-- `'\0'`, the sentinel `entry_char` of BOS and fallback nodes. -/
def nulChar : Char := Char.ofNat 0

/-- lib.rs `get_entry`: `&self.entry_cache[&first_char][local_idx]`; `none`
    models the panic on a missing key or out-of-range index. -/
def get_entry (d : RtDict) (first_char : Char) (local_idx : Nat) : Option DictEntryRt :=
  match d.index.lookup first_char with
  | none => none
  | some es => es[local_idx]?

/-- lib.rs `read_reading_at`: seek to `strings_offset + offset`, read `len`
    bytes, decode UTF-8; `none` models the `unwrap` panics. -/
def read_reading_at (d : RtDict) (off len : Nat) : Option (List Char) :=
  let bytes := (d.pool.drop off).take len
  if bytes.length < len then none
  else utf8Dec bytes

/-- The match loop of lib.rs `lookup` over the cached entry block, carrying
    the running enumeration index `i`. -/
def lookupGo (chars : List Char) (start : Nat) (fc : Char) :
    Nat → List DictEntryRt → List (Char × Nat)
  | _, [] => []
  | i, e :: rest =>
    if start + e.surface.length ≤ chars.length ∧
        (chars.drop start).take e.surface.length = e.surface
    then (fc, i) :: lookupGo chars start fc (i + 1) rest
    else lookupGo chars start fc (i + 1) rest

/-- lib.rs `lookup`. -/
def lookup (d : RtDict) (chars : List Char) (start : Nat) : List (Char × Nat) :=
  if chars.length ≤ start then []
  else
    match d.index.lookup (chars.getD start nulChar) with
    | none => []
    | some cached => lookupGo chars start (chars.getD start nulChar) 0 cached

theorem lookupGo_sound (chars : List Char) (start : Nat) (fc : Char) :
    ∀ es i c j, (c, j) ∈ lookupGo chars start fc i es →
      c = fc ∧ i ≤ j ∧ ∃ e, es[j - i]? = some e ∧
        start + e.surface.length ≤ chars.length ∧
        (chars.drop start).take e.surface.length = e.surface := by
  intro es
  induction es with
  | nil => intro i c j h; simp [lookupGo] at h
  | cons e rest ih =>
    intro i c j h
    rw [lookupGo] at h
    by_cases hc : start + e.surface.length ≤ chars.length ∧
        (chars.drop start).take e.surface.length = e.surface
    · rw [if_pos hc] at h
      rcases List.mem_cons.mp h with h | h
      · obtain ⟨rfl, rfl⟩ := Prod.mk.injEq .. ▸ And.intro (congrArg Prod.fst h) (congrArg Prod.snd h)
        refine ⟨rfl, le_rfl, e, ?_, hc.1, hc.2⟩
        simp
      · obtain ⟨rfl, hij, e2, he2, hcond⟩ := ih (i + 1) c j h
        refine ⟨rfl, by omega, e2, ?_, hcond.1, hcond.2⟩
        have : j - i = (j - (i + 1)) + 1 := by omega
        rw [this]
        simpa using he2
    · rw [if_neg hc] at h
      obtain ⟨rfl, hij, e2, he2, hcond⟩ := ih (i + 1) c j h
      refine ⟨rfl, by omega, e2, ?_, hcond.1, hcond.2⟩
      have : j - i = (j - (i + 1)) + 1 := by omega
      rw [this]
      simpa using he2

theorem lookupGo_complete (chars : List Char) (start : Nat) (fc : Char) :
    ∀ es i k e, es[k]? = some e →
      start + e.surface.length ≤ chars.length →
      (chars.drop start).take e.surface.length = e.surface →
      (fc, i + k) ∈ lookupGo chars start fc i es := by
  intro es
  induction es with
  | nil => intro i k e h; simp at h
  | cons e0 rest ih =>
    intro i k e hk hle htake
    rw [lookupGo]
    cases k with
    | zero =>
      simp at hk
      subst hk
      rw [if_pos ⟨hle, htake⟩]
      simp
    | succ k =>
      simp only [List.getElem?_cons_succ] at hk
      have hmem := ih (i + 1) k e hk hle htake
      have harith : i + 1 + k = i + (k + 1) := by omega
      rw [harith] at hmem
      by_cases hc : start + e0.surface.length ≤ chars.length ∧
          (chars.drop start).take e0.surface.length = e0.surface
      · rw [if_pos hc]
        exact List.mem_cons_of_mem _ hmem
      · rw [if_neg hc]
        exact hmem

theorem lookupGo_sorted (chars : List Char) (start : Nat) (fc : Char) :
    ∀ es i, (∀ p ∈ lookupGo chars start fc i es, i ≤ p.2) ∧
      ((lookupGo chars start fc i es).map Prod.snd).Sorted (· < ·) := by
  intro es
  induction es with
  | nil => intro i; simp [lookupGo, List.Sorted]
  | cons e rest ih =>
    intro i
    rw [lookupGo]
    by_cases hc : start + e.surface.length ≤ chars.length ∧
        (chars.drop start).take e.surface.length = e.surface
    · rw [if_pos hc]
      obtain ⟨hb, hs⟩ := ih (i + 1)
      constructor
      · intro p hp
        rcases List.mem_cons.mp hp with h | h
        · rw [h]
        · have := hb p h
          omega
      · rw [List.map_cons]
        rw [List.sorted_cons]
        refine ⟨?_, hs⟩
        intro b hb2
        obtain ⟨p, hp, rfl⟩ := List.mem_map.mp hb2
        have := hb p hp
        omega
    · rw [if_neg hc]
      obtain ⟨hb, hs⟩ := ih (i + 1)
      refine ⟨?_, hs⟩
      intro p hp
      have := hb p hp
      omega

/-- C5: `lookup(text, i)` returns only handles of entries from the block for
    `text[i]` whose surface fits inside the text and matches it codepoint by
    codepoint; the handles carry strictly increasing local indices (the
    on-disk block order), every matching entry of the block is returned, and
    the result is empty when `i` is past the end or `text[i]` is not in the
    first-character index. -/
theorem claim_C5 (d : RtDict) (chars : List Char) (start : Nat) :
    (chars.length ≤ start → lookup d chars start = []) ∧
    (d.index.lookup (chars.getD start nulChar) = none → lookup d chars start = []) ∧
    (∀ fc i, (fc, i) ∈ lookup d chars start →
      fc = chars.getD start nulChar ∧
      ∃ es e, d.index.lookup fc = some es ∧ es[i]? = some e ∧
        start + e.surface.length ≤ chars.length ∧
        (chars.drop start).take e.surface.length = e.surface) ∧
    (∀ es k e, start < chars.length →
      d.index.lookup (chars.getD start nulChar) = some es →
      es[k]? = some e →
      start + e.surface.length ≤ chars.length →
      (chars.drop start).take e.surface.length = e.surface →
      (chars.getD start nulChar, k) ∈ lookup d chars start) ∧
    ((lookup d chars start).map Prod.snd).Sorted (· < ·) := by
  refine ⟨?_, ?_, ?_, ?_, ?_⟩
  · intro h
    rw [lookup, if_pos h]
  · intro h
    rw [lookup]
    by_cases hlen : chars.length ≤ start
    · rw [if_pos hlen]
    · rw [if_neg hlen, h]
  · intro fc i h
    rw [lookup] at h
    by_cases hlen : chars.length ≤ start
    · rw [if_pos hlen] at h
      simp at h
    · rw [if_neg hlen] at h
      cases hidx : d.index.lookup (chars.getD start nulChar) with
      | none => rw [hidx] at h; simp at h
      | some cached =>
        rw [hidx] at h
        obtain ⟨rfl, _, e, he, hc1, hc2⟩ := lookupGo_sound chars start _ cached 0 fc i h
        simp only [Nat.sub_zero] at he
        exact ⟨rfl, cached, e, hidx, he, hc1, hc2⟩
  · intro es k e hstart hidx hk hle htake
    rw [lookup, if_neg (by omega), hidx]
    have := lookupGo_complete chars start (chars.getD start nulChar) es 0 k e hk hle htake
    simpa using this
  · rw [lookup]
    by_cases hlen : chars.length ≤ start
    · rw [if_pos hlen]; simp [List.Sorted]
    · rw [if_neg hlen]
      cases hidx : d.index.lookup (chars.getD start nulChar) with
      | none => simp [List.Sorted]
      | some cached => exact (lookupGo_sorted chars start _ cached 0).2

/-- Demo runtime dictionary for the witnesses: one block for `山`. -/
def demoRt : RtDict :=
  { index := [('山', [⟨['山'], 0, 100, 0, 6⟩, ⟨['山', '道'], 1, 50, 0, 12⟩])],
    matrix := [0, 0, 0, 0],
    matrix_size := 2,
    pool := utf8Enc ['や', 'ま', 'み', 'ち'] }

theorem claim_C5_witness :
    ('山', 0) ∈ lookup demoRt ['山', '道'] 0 ∧
    ('山' = (['山', '道'].getD 0 nulChar) ∧
      ∃ es e, demoRt.index.lookup '山' = some es ∧ es[(0 : Nat)]? = some e ∧
        0 + e.surface.length ≤ (['山', '道'] : List Char).length ∧
        ((['山', '道'] : List Char).drop 0).take e.surface.length = e.surface) :=
  ⟨by decide, (claim_C5 demoRt ['山', '道'] 0).2.2.1 '山' 0 (by decide)⟩

/-! ## Lattice construction and Viterbi decoding (lib.rs `transliterate`) -/

/-- lib.rs `LatticeNode`. -/
structure LatticeNode where
  start_pos : Nat
  end_pos : Nat
  entry_char : Char
  entry_local_idx : Nat
  cost : Int
  prev_node : Option Nat
deriving DecidableEq

/-- The BOS sentinel seeded into `nodes[0]`. -/
def bosNode : LatticeNode := ⟨0, 0, nulChar, 0, 0, none⟩

/-- One lattice slot item: `(entry handle, start position)`. -/
abbrev LatItem := (Char × Nat) × Nat

/-- lib.rs `build_lattice`: for each start position, push each match's handle
    into `lattice[start + surface_len]`.  `none` models the `get_entry` panic
    on an invalid handle. -/
def buildLattice (d : RtDict) (chars : List Char) : Option (List (List LatItem)) :=
  (List.range chars.length).foldlM
    (fun lat start =>
      (lookup d chars start).foldlM
        (fun lat2 m =>
          match get_entry d m.1 m.2 with
          | none => none
          | some e =>
            some (lat2.set (start + e.surface.length)
              (lat2.getD (start + e.surface.length) [] ++ [(m, start)])))
        lat)
    (List.replicate (chars.length + 1) [])

/-- The first-wins strict argmin of the Rust update
    `if total_cost < best_cost { ... }`, enumerating from index `n`. -/
def argminGo : Option (Nat × Int) → Nat → List Int → Option (Nat × Int)
  | best, _, [] => best
  | best, n, c :: rest =>
    argminGo
      (match best with
       | none => some (n, c)
       | some (bi, bc) => if c < bc then some (n, c) else some (bi, bc))
      (n + 1) rest

/-- First index attaining the minimum of a list of costs. -/
def argminFirst (costs : List Int) : Option (Nat × Int) :=
  argminGo none 0 costs

/-- `prev_pos_id` for one predecessor: 0 at the start of the input and after
    BOS/fallback nodes, otherwise the predecessor entry's `pos_id`
    (`none` = `get_entry` panic). -/
def prevPosId (d : RtDict) (start_pos : Nat) (pn : LatticeNode) : Option Nat :=
  if start_pos = 0 ∨ pn.entry_char = nulChar then some 0
  else (get_entry d pn.entry_char pn.entry_local_idx).map (·.pos_id)

/-- The candidate total cost through one predecessor:
    `prev.cost + word_cost + matrix_cost(prev_pos_id, pos_id)`. -/
def nodeTotal (d : RtDict) (e : DictEntryRt) (start_pos : Nat) (pn : LatticeNode) : Option Int :=
  (prevPosId d start_pos pn).map fun pid =>
    pn.cost + e.word_cost + get_matrix_cost d.matrix d.matrix_size pid e.pos_id

/-- All candidate totals of a column, failing at the first predecessor whose
    `get_entry` would panic (as the Rust loop does). -/
def totalsOf (d : RtDict) (e : DictEntryRt) (start_pos : Nat) :
    List LatticeNode → Option (List Int)
  | [] => some []
  | pn :: rest =>
    match nodeTotal d e start_pos pn with
    | none => none
    | some t => (totalsOf d e start_pos rest).map (t :: ·)

/-- The predecessor-selection loop of the forward pass: compute every
    candidate total in column order and keep the first strict minimum.
    (The Rust loop interleaves the two; the result and the panic behaviour
    are identical since `totalsOf` fails at the first bad predecessor, and the
    `i32::MAX` sentinel is modelled by the `Option` accumulator.) -/
def bestPred (d : RtDict) (e : DictEntryRt) (start_pos : Nat) (col : List LatticeNode) :
    Option (Option (Nat × Int)) :=
  (totalsOf d e start_pos col).map argminFirst

/-- The fallback column: one fallback node per predecessor, at +10000. -/
def fallbackColumn (col : List LatticeNode) (pos : Nat) : List LatticeNode :=
  (List.range col.length).map fun i =>
    ⟨pos - 1, pos, nulChar, 0, (col.getD i bosNode).cost + 10000, some i⟩

/-- One iteration of the forward pass (the body of `for pos in 1..=len`). -/
def processColumn (d : RtDict) (lattice : List (List LatItem))
    (nodes : List (List LatticeNode)) (pos : Nat) : Option (List (List LatticeNode)) :=
  if lattice.getD pos [] = [] then
    if nodes.getD (pos - 1) [] = [] then some nodes
    else some (nodes.set pos
      (nodes.getD pos [] ++ fallbackColumn (nodes.getD (pos - 1) []) pos))
  else
    (lattice.getD pos []).foldlM
      (fun ns item =>
        if ns.getD item.2 [] = [] then some ns
        else
          match get_entry d item.1.1 item.1.2 with
          | none => none
          | some e =>
            match bestPred d e item.2 (ns.getD item.2 []) with
            | none => none
            | some none => some ns
            | some (some (bi, bc)) =>
              some (ns.set pos
                (ns.getD pos [] ++ [⟨item.2, pos, item.1.1, item.1.2, bc, some bi⟩])))
      nodes

/-- The whole forward pass: seed `nodes[0]` with BOS, then process columns
    1 through `len`. -/
def forwardPass (d : RtDict) (lattice : List (List LatItem)) (len : Nat) :
    Option (List (List LatticeNode)) :=
  (List.range len).foldlM (fun ns i => processColumn d lattice ns (i + 1))
    ((List.replicate (len + 1) ([] : List LatticeNode)).set 0 [bosNode])

/-- `min_by_key(|n| n.cost)` over a column: index of the first minimum. -/
def minCostIdx (col : List LatticeNode) : Option Nat :=
  (argminFirst (col.map (·.cost))).map (·.1)

/-- The backtrack loop of `transliterate`, collecting output pieces in visit
    order (end of input first).  A fallback node is recognised by
    `entry_char == '\0' && cost >= 10000`; otherwise the node is treated as an
    entry node and its reading is fetched.  `none` models panics (bad index,
    `get_entry` on a missing key, reading read/decode failure); fuel is
    instantiated generously by the caller. -/
def backtrackLoop (d : RtDict) (chars : List Char) (nodes : List (List LatticeNode)) :
    Nat → Nat → Nat → List (List Char) → Option (List (List Char))
  | 0, _, _, _ => none
  | fuel + 1, current_pos, idx, acc =>
    if current_pos = 0 then some acc
    else
      match (nodes.getD current_pos [])[idx]? with
      | none => none
      | some node =>
        if node.start_pos = 0 ∧ node.end_pos = 0 then some acc
        else
          match
            (if node.entry_char = nulChar ∧ 10000 ≤ node.cost then
              match chars[node.start_pos]? with
              | none => none
              | some ch => some [ch]
            else
              match get_entry d node.entry_char node.entry_local_idx with
              | none => none
              | some e => read_reading_at d e.reading_offset e.reading_len) with
          | none => none
          | some piece =>
            match node.prev_node with
            | some pidx => backtrackLoop d chars nodes fuel node.start_pos pidx (acc ++ [piece])
            | none => some (acc ++ [piece])

/-- Fuel bound for the backtrack walk: more than the total number of nodes
    plus the input length. -/
def backtrackFuel (nodes : List (List LatticeNode)) (len : Nat) : Nat :=
  nodes.foldl (fun a col => a + col.length) 0 + len + 1

/-- lib.rs `transliterate`. -/
def transliterate (d : RtDict) (chars : List Char) : Option (List Char) :=
  if chars = [] then some []
  else
    match buildLattice d chars with
    | none => none
    | some lattice =>
      match forwardPass d lattice chars.length with
      | none => none
      | some nodes =>
        if nodes.getD chars.length [] = [] then some chars
        else
          match minCostIdx (nodes.getD chars.length []) with
          | none => some []
          | some idx =>
            match backtrackLoop d chars nodes (backtrackFuel nodes chars.length)
                chars.length idx [] with
            | none => none
            | some pieces => some pieces.reverse.flatten

/-- A dictionary with a negative word cost, legitimately producible by the
    compiler (word costs are `i16`).  It makes a fallback node's cumulative
    cost fall below the 10000 threshold that the backtrack loop uses to
    recognise fallback nodes. -/
def bugDict : RtDict :=
  { index := [('山', [⟨['山'], 0, -5, 0, 6⟩])],
    matrix := [0],
    matrix_size := 1,
    pool := utf8Enc ['や', 'ま'] }

/-- C1 is right about the intent and the code is wrong: on `山x` with a
    dictionary entry `山` of word cost −5, the minimum-cost path covers `x`
    with a fallback node of cumulative cost 9995.  The backtrack test
    `entry_char == '\0' && cost >= 10000` fails on it, so the code treats the
    fallback node as an entry node and panics looking up the entry handle
    `('\0', 0)` instead of emitting `x` unchanged (the spec further states the
    segmenter never fails). -/
theorem claim_C1_code_bug :
    buildLattice bugDict ['山', 'x'] = some [[], [(('山', 0), 0)], []] ∧
    forwardPass bugDict [[], [(('山', 0), 0)], []] 2 =
      some [[bosNode],
        [⟨0, 1, '山', 0, -5, some 0⟩],
        [⟨1, 2, nulChar, 0, 9995, some 0⟩]] ∧
    minCostIdx [⟨1, 2, nulChar, 0, 9995, some 0⟩] = some 0 ∧
    transliterate bugDict ['山', 'x'] = none := by
  refine ⟨by decide, by decide, by decide, by decide⟩

/-! ## C4: stable first-wins tie-breaking -/

theorem argminGo_spec (costs : List Int) :
    ∀ (l : List Int) (n : Nat) (best : Option (Nat × Int)),
      costs.drop n = l → n ≤ costs.length →
      ((best = none ∧ n = 0) ∨
        (∃ bi bc, best = some (bi, bc) ∧ bi < n ∧ costs.getD bi 0 = bc ∧
          (∀ j, j < n → bc ≤ costs.getD j 0) ∧ (∀ j, j < bi → bc < costs.getD j 0))) →
      ((argminGo best n l = none ∧ costs.length = 0) ∨
        (∃ bi bc, argminGo best n l = some (bi, bc) ∧ bi < costs.length ∧
          costs.getD bi 0 = bc ∧
          (∀ j, j < costs.length → bc ≤ costs.getD j 0) ∧
          (∀ j, j < bi → bc < costs.getD j 0))) := by
  intro l
  induction l with
  | nil =>
    intro n best hdrop hle hinv
    have hn : n = costs.length := by
      have := congrArg List.length hdrop
      simp [List.length_drop] at this
      omega
    rw [argminGo]
    rcases hinv with ⟨rfl, rfl⟩ | ⟨bi, bc, rfl, h1, h2, h3, h4⟩
    · left
      exact ⟨rfl, hn.symm⟩
    · right
      exact ⟨bi, bc, rfl, by omega, h2, by rw [← hn]; exact h3, h4⟩
  | cons c rest ih =>
    intro n best hdrop hle hinv
    have hlt : n < costs.length := by
      have := congrArg List.length hdrop
      simp [List.length_drop] at this
      omega
    have hcn : costs.getD n 0 = c := by
      have h0 : (costs.drop n)[0]? = some c := by rw [hdrop]; simp
      rw [List.getElem?_drop] at h0
      simp only [Nat.add_zero] at h0
      rw [List.getD_eq_getElem?_getD, h0]
      rfl
    have hdrop2 : costs.drop (n + 1) = rest := by
      have : costs.drop (n + 1) = (costs.drop n).drop 1 := by
        rw [List.drop_drop]
      rw [this, hdrop]
      rfl
    simp only [argminGo]
    apply ih (n + 1) _ hdrop2 (by omega)
    rcases hinv with ⟨rfl, rfl⟩ | ⟨bi, bc, rfl, h1, h2, h3, h4⟩
    · right
      refine ⟨0, c, rfl, by omega, hcn, ?_, by omega⟩
      intro j hj
      have : j = 0 := by omega
      rw [this, hcn]
    · by_cases hlt2 : c < bc
      · right
        refine ⟨n, c, by simp [hlt2], by omega, hcn, ?_, ?_⟩
        · intro j hj
          rcases Nat.lt_or_ge j n with h | h
          · have := h3 j h
            omega
          · have : j = n := by omega
            rw [this, hcn]
        · intro j hj
          have := h3 j (by omega)
          omega
      · right
        refine ⟨bi, bc, by simp [hlt2], by omega, h2, ?_, h4⟩
        intro j hj
        rcases Nat.lt_or_ge j n with h | h
        · exact h3 j h
        · have : j = n := by omega
          rw [this, hcn]
          omega

theorem argminFirst_spec (costs : List Int) (bi : Nat) (bc : Int)
    (h : argminFirst costs = some (bi, bc)) :
    bi < costs.length ∧ costs.getD bi 0 = bc ∧
      (∀ j, j < costs.length → bc ≤ costs.getD j 0) ∧
      (∀ j, j < bi → bc < costs.getD j 0) := by
  have := argminGo_spec costs costs 0 none rfl (by omega) (Or.inl ⟨rfl, rfl⟩)
  rcases this with ⟨hnone, _⟩ | ⟨bi2, bc2, heq, h1, h2, h3, h4⟩
  · rw [argminFirst] at h
    rw [h] at hnone
    cases hnone
  · rw [argminFirst] at h
    rw [h] at heq
    cases heq
    exact ⟨h1, h2, h3, h4⟩

theorem argminFirst_isSome (costs : List Int) (hne : costs ≠ []) :
    ∃ bi bc, argminFirst costs = some (bi, bc) := by
  have := argminGo_spec costs costs 0 none rfl (by omega) (Or.inl ⟨rfl, rfl⟩)
  rcases this with ⟨_, hlen⟩ | ⟨bi, bc, heq, _⟩
  · exact absurd (List.length_eq_zero.mp hlen) hne
  · exact ⟨bi, bc, heq⟩

theorem totalsOf_spec (d : RtDict) (e : DictEntryRt) (sp : Nat) :
    ∀ (col : List LatticeNode) (ts : List Int), totalsOf d e sp col = some ts →
      ts.length = col.length ∧
      ∀ j, j < col.length → nodeTotal d e sp (col.getD j bosNode) = some (ts.getD j 0) := by
  intro col
  induction col with
  | nil =>
    intro ts h
    rw [totalsOf] at h
    cases h
    exact ⟨rfl, by intro j hj; simp at hj⟩
  | cons pn rest ih =>
    intro ts h
    rw [totalsOf] at h
    cases ht : nodeTotal d e sp pn with
    | none => rw [ht] at h; cases h
    | some t =>
      rw [ht] at h
      cases hrest : totalsOf d e sp rest with
      | none => rw [hrest] at h; cases h
      | some ts2 =>
        rw [hrest] at h
        simp only [Option.map_some] at h
        cases h
        obtain ⟨hlen, hpt⟩ := ih ts2 hrest
        refine ⟨by simp [hlen], ?_⟩
        intro j hj
        cases j with
        | zero => simpa using ht
        | succ j =>
          simp only [List.getD_cons_succ]
          exact hpt j (by simp at hj; omega)

/-- C4: tie-breaking is stable and first-wins.  In the forward pass,
    `bestPred` selects the first predecessor (in column order) attaining the
    minimal total cost; at backtrack, `minCostIdx` selects the first node of
    the final column attaining the minimal cumulative cost; both selections
    exist whenever the column is nonempty (and, for `bestPred`, whenever no
    predecessor lookup panics). -/
theorem claim_C4 (d : RtDict) (e : DictEntryRt) (sp : Nat) (col : List LatticeNode)
    (ts : List Int) (hts : totalsOf d e sp col = some ts) :
    (∀ bi bc, bestPred d e sp col = some (some (bi, bc)) →
      bi < col.length ∧ nodeTotal d e sp (col.getD bi bosNode) = some bc ∧
      (∀ j, j < col.length → bc ≤ ts.getD j 0) ∧
      (∀ j, j < bi → bc < ts.getD j 0)) ∧
    (col ≠ [] → ∃ bi bc, bestPred d e sp col = some (some (bi, bc))) ∧
    (∀ i, minCostIdx col = some i →
      i < col.length ∧
      (∀ j, j < col.length → (col.getD i bosNode).cost ≤ (col.getD j bosNode).cost) ∧
      (∀ j, j < i → (col.getD i bosNode).cost < (col.getD j bosNode).cost)) ∧
    (col ≠ [] → minCostIdx col ≠ none) := by
  obtain ⟨hlen, hpt⟩ := totalsOf_spec d e sp col ts hts
  have hcostsgetd : ∀ j, j < col.length →
      (col.map (·.cost)).getD j 0 = (col.getD j bosNode).cost := by
    intro j hj
    rw [List.getD_eq_getElem?_getD, List.getD_eq_getElem?_getD, List.getElem?_map]
    rw [List.getElem?_eq_getElem hj]
    rfl
  refine ⟨?_, ?_, ?_, ?_⟩
  · intro bi bc hbp
    rw [bestPred, hts] at hbp
    simp only [Option.map_some', Option.some.injEq] at hbp
    obtain ⟨h1, h2, h3, h4⟩ := argminFirst_spec ts bi bc hbp
    refine ⟨by omega, ?_, ?_, h4⟩
    · rw [hpt bi (by omega), h2]
    · intro j hj
      exact h3 j (by omega)
  · intro hne
    have : ts ≠ [] := by
      intro h
      rw [h] at hlen
      simp at hlen
      exact hne (List.length_eq_zero.mp hlen.symm)
    obtain ⟨bi, bc, hmin⟩ := argminFirst_isSome ts this
    exact ⟨bi, bc, by rw [bestPred, hts]; simp [hmin]⟩
  · intro i hmin
    rw [minCostIdx] at hmin
    cases ham : argminFirst (col.map (·.cost)) with
    | none => rw [ham] at hmin; cases hmin
    | some p =>
      rw [ham] at hmin
      simp only [Option.map_some', Option.some.injEq] at hmin
      obtain ⟨h1, h2, h3, h4⟩ := argminFirst_spec _ p.1 p.2 (by rw [ham])
      rw [List.length_map] at h1
      subst hmin
      have hid : (col.getD p.1 bosNode).cost = p.2 := by
        rw [← hcostsgetd p.1 h1, h2]
      refine ⟨h1, ?_, ?_⟩
      · intro j hj
        have hle := h3 j (by rw [List.length_map]; omega)
        rw [hcostsgetd j hj] at hle
        rw [hid]
        exact hle
      · intro j hj
        have hlt := h4 j hj
        rw [hcostsgetd j (by omega)] at hlt
        rw [hid]
        exact hlt
  · intro hne
    have : col.map (·.cost) ≠ [] := by
      intro h
      have hc0 : col.length = 0 := by
        have := congrArg List.length h
        simp only [List.length_map, List.length_nil] at this
        exact this
      exact hne (List.eq_nil_of_length_eq_zero hc0)
    obtain ⟨bi, bc, hm⟩ := argminFirst_isSome _ this
    rw [minCostIdx, hm]
    simp

theorem claim_C4_witness :
    totalsOf demoRt ⟨['山'], 0, 100, 0, 6⟩ 0 [bosNode, ⟨0, 1, '山', 0, 100, some 0⟩] =
      some [100, 200] ∧
    bestPred demoRt ⟨['山'], 0, 100, 0, 6⟩ 0 [bosNode, ⟨0, 1, '山', 0, 100, some 0⟩] =
      some (some (0, 100)) ∧
    minCostIdx [bosNode, ⟨0, 1, '山', 0, 100, some 0⟩] ≠ none := by
  refine ⟨by decide, by decide, ?_⟩
  exact (claim_C4 demoRt ⟨['山'], 0, 100, 0, 6⟩ 0 [bosNode, ⟨0, 1, '山', 0, 100, some 0⟩]
    [100, 200] (by decide)).2.2.2 (by decide)

/-! ## C10: handle validity through the whole `transliterate` call -/

theorem lookup_mem {α β : Type} [BEq α] [LawfulBEq α] (l : List (α × β)) (k : α) (b : β)
    (h : l.lookup k = some b) : (k, b) ∈ l := by
  rw [List.lookup_eq_some_iff] at h
  obtain ⟨l₁, l₂, rfl, _⟩ := h
  simp

/-- Invariant-preserving `foldlM` over `Option` never panics. -/
theorem foldlM_option_inv {α β : Type} (f : β → α → Option β) (P : β → Prop) :
    ∀ (l : List α) (init : β), P init →
      (∀ b a, a ∈ l → P b → ∃ b2, f b a = some b2 ∧ P b2) →
      ∃ b, l.foldlM f init = some b ∧ P b := by
  intro l
  induction l with
  | nil =>
    intro init h _
    exact ⟨init, by simp, h⟩
  | cons a l ih =>
    intro init h hstep
    obtain ⟨b2, hf, hP⟩ := hstep init a (by simp) h
    obtain ⟨b, hfold, hPb⟩ := ih b2 hP (fun b x hx hP2 => hstep b x (by simp [hx]) hP2)
    refine ⟨b, ?_, hPb⟩
    rw [List.foldlM_cons, hf]
    simpa using hfold

/-- Soundness of `lookup`: every returned handle is valid and matches. -/
theorem lookup_sound (d : RtDict) (chars : List Char) (start : Nat) :
    ∀ c i, (c, i) ∈ lookup d chars start →
      ∃ es e, d.index.lookup c = some es ∧ es[i]? = some e ∧
        start + e.surface.length ≤ chars.length ∧
        (chars.drop start).take e.surface.length = e.surface := by
  intro c i h
  rw [lookup] at h
  by_cases hlen : chars.length ≤ start
  · rw [if_pos hlen] at h
    simp at h
  · rw [if_neg hlen] at h
    cases hidx : d.index.lookup (chars.getD start nulChar) with
    | none => rw [hidx] at h; simp at h
    | some cached =>
      rw [hidx] at h
      obtain ⟨rfl, _, e, he, hc1, hc2⟩ := lookupGo_sound chars start _ cached 0 c i h
      simp only [Nat.sub_zero] at he
      exact ⟨cached, e, hidx, he, hc1, hc2⟩

/-- Validity of a lattice produced by `build_lattice`. -/
def LatInv (d : RtDict) (chars : List Char) (lat : List (List LatItem)) : Prop :=
  lat.length = chars.length + 1 ∧
  ∀ pos item, item ∈ lat.getD pos [] →
    ∃ es e, d.index.lookup item.1.1 = some es ∧ es[item.1.2]? = some e ∧
      pos = item.2 + e.surface.length ∧
      item.2 + e.surface.length ≤ chars.length ∧
      (chars.drop item.2).take e.surface.length = e.surface

/-- `build_lattice` never panics, and every handle it stores is valid. -/
theorem buildLattice_spec (d : RtDict) (chars : List Char) :
    ∃ lat, buildLattice d chars = some lat ∧ LatInv d chars lat := by
  rw [buildLattice]
  apply foldlM_option_inv _ (LatInv d chars)
  · constructor
    · simp
    · intro pos item h
      by_cases hp : pos < chars.length + 1
      · rw [List.getD_eq_getElem?_getD, List.getElem?_replicate, if_pos hp] at h
        simp at h
      · rw [List.getD_eq_getElem?_getD, List.getElem?_replicate, if_neg hp] at h
        simp at h
  · intro lat start hstart hP
    apply foldlM_option_inv _ (LatInv d chars)
    · exact hP
    · intro lat2 m hm hP2
      obtain ⟨es, e, hes, he, hle, htake⟩ := lookup_sound d chars start m.1 m.2
        (by cases m; exact hm)
      have hge : get_entry d m.1 m.2 = some e := by
        rw [get_entry, hes]
        exact he
      rw [hge]
      refine ⟨_, rfl, ?_, ?_⟩
      · rw [List.length_set]
        exact hP2.1
      · intro pos item hitem
        by_cases hpos : pos = start + e.surface.length
        · subst hpos
          have hlt : start + e.surface.length < lat2.length := by
            rw [hP2.1]
            omega
          rw [List.getD_eq_getElem?_getD, List.getElem?_set, if_pos rfl, if_pos hlt] at hitem
          simp only [Option.getD_some] at hitem
          rcases List.mem_append.mp hitem with h | h
          · exact hP2.2 _ item h
          · simp only [List.mem_singleton] at h
            subst h
            exact ⟨es, e, hes, he, rfl, hle, htake⟩
        · rw [List.getD_eq_getElem?_getD, List.getElem?_set,
            if_neg (fun hc => hpos hc.symm)] at hitem
          exact hP2.2 pos item (by rw [List.getD_eq_getElem?_getD]; exact hitem)

/-- `totalsOf` succeeds when every non-fallback predecessor has a valid
    handle. -/
theorem totalsOf_isSome (d : RtDict) (e : DictEntryRt) (sp : Nat) :
    ∀ col : List LatticeNode,
      (∀ pn ∈ col, pn.entry_char ≠ nulChar →
        ∃ pe, get_entry d pn.entry_char pn.entry_local_idx = some pe) →
      ∃ ts, totalsOf d e sp col = some ts := by
  intro col
  induction col with
  | nil => intro _; exact ⟨[], rfl⟩
  | cons pn rest ih =>
    intro h
    have hpn : ∃ t, nodeTotal d e sp pn = some t := by
      rw [nodeTotal, prevPosId]
      by_cases hc : sp = 0 ∨ pn.entry_char = nulChar
      · rw [if_pos hc]
        exact ⟨_, rfl⟩
      · rw [if_neg hc]
        push_neg at hc
        obtain ⟨pe, hpe⟩ := h pn (by simp) hc.2
        rw [hpe]
        exact ⟨_, rfl⟩
    obtain ⟨t, ht⟩ := hpn
    obtain ⟨ts, hts⟩ := ih (fun x hx => h x (by simp [hx]))
    refine ⟨t :: ts, ?_⟩
    rw [totalsOf, ht, hts]
    rfl

/-- Handle validity of all nodes built by the forward pass. -/
def HandleInv (d : RtDict) (ns : List (List LatticeNode)) : Prop :=
  ∀ pos node, node ∈ ns.getD pos [] → node.entry_char ≠ nulChar →
    ∃ e, get_entry d node.entry_char node.entry_local_idx = some e

theorem forwardPass_handles (d : RtDict) (chars : List Char) (lat : List (List LatItem))
    (hlat : LatInv d chars lat) :
    ∃ ns, forwardPass d lat chars.length = some ns ∧ HandleInv d ns ∧
      ns.length = chars.length + 1 := by
  rw [forwardPass]
  have hmain := foldlM_option_inv (fun ns i => processColumn d lat ns (i + 1))
    (fun ns => HandleInv d ns ∧ ns.length = chars.length + 1)
    (List.range chars.length)
    ((List.replicate (chars.length + 1) ([] : List LatticeNode)).set 0 [bosNode])
    ?hinit ?hstep
  · obtain ⟨ns, h1, h2, h3⟩ := hmain
    exact ⟨ns, h1, h2, h3⟩
  case hinit =>
    constructor
    · intro pos node h hne
      exfalso
      by_cases hp : pos = 0
      · subst hp
        have h0 : ((List.replicate (chars.length + 1) ([] : List LatticeNode)).set
            0 [bosNode]).getD 0 [] = [bosNode] := by
          rw [List.getD_eq_getElem?_getD, List.getElem?_set, if_pos rfl,
            if_pos (by simp)]
          rfl
        rw [h0] at h
        simp only [List.mem_singleton] at h
        subst h
        exact hne rfl
      · rw [List.getD_eq_getElem?_getD, List.getElem?_set, if_neg (fun hc => hp hc.symm)] at h
        by_cases hlt : pos < chars.length + 1
        · rw [List.getElem?_replicate, if_pos hlt] at h
          simp at h
        · rw [List.getElem?_replicate, if_neg hlt] at h
          simp at h
    · simp
  case hstep =>
    intro ns i hi hP
    obtain ⟨hH, hL⟩ := hP
    show ∃ b2, processColumn d lat ns (i + 1) = some b2 ∧
      (HandleInv d b2 ∧ b2.length = chars.length + 1)
    unfold processColumn
    by_cases hemp : lat.getD (i + 1) [] = []
    · rw [if_pos hemp]
      by_cases hprev : ns.getD (i + 1 - 1) [] = []
      · rw [if_pos hprev]
        exact ⟨ns, rfl, hH, hL⟩
      · rw [if_neg hprev]
        refine ⟨_, rfl, ?_, by rw [List.length_set]; exact hL⟩
        intro pos node h hne
        by_cases hpos : pos = i + 1
        · subst hpos
          by_cases hlt : i + 1 < ns.length
          · rw [List.getD_eq_getElem?_getD, List.getElem?_set, if_pos rfl, if_pos hlt] at h
            simp only [Option.getD_some] at h
            rcases List.mem_append.mp h with h | h
            · exact hH _ node h hne
            · rw [fallbackColumn] at h
              obtain ⟨j, _, hj⟩ := List.mem_map.mp h
              exfalso
              apply hne
              rw [← hj]
          · rw [List.getD_eq_getElem?_getD, List.getElem?_set, if_pos rfl, if_neg hlt] at h
            simp at h
        · rw [List.getD_eq_getElem?_getD, List.getElem?_set,
            if_neg (fun hc => hpos hc.symm)] at h
          exact hH pos node (by rw [List.getD_eq_getElem?_getD]; exact h) hne
    · rw [if_neg hemp]
      apply foldlM_option_inv _
        (fun ns2 => HandleInv d ns2 ∧ ns2.length = chars.length + 1)
      · exact ⟨hH, hL⟩
      · intro ns2 item hitem hP2
        obtain ⟨hH2, hL2⟩ := hP2
        by_cases hcol : ns2.getD item.2 [] = []
        · rw [if_pos hcol]
          exact ⟨ns2, rfl, hH2, hL2⟩
        · rw [if_neg hcol]
          obtain ⟨es, e, hes, he, _, _, _⟩ := hlat.2 (i + 1) item hitem
          have hge : get_entry d item.1.1 item.1.2 = some e := by
            rw [get_entry, hes]
            exact he
          obtain ⟨ts, hts⟩ := totalsOf_isSome d e item.2 (ns2.getD item.2 [])
            (fun pn hpn hne => hH2 item.2 pn hpn hne)
          have htsne : ts ≠ [] := by
            intro hnil
            subst hnil
            obtain ⟨hlen0, _⟩ := totalsOf_spec d e item.2 _ _ hts
            simp at hlen0
            apply hcol
            rw [List.getD_eq_getElem?_getD]
            exact List.eq_nil_of_length_eq_zero hlen0.symm
          obtain ⟨bi, bc, hmin⟩ := argminFirst_isSome ts htsne
          simp only [hge, bestPred, hts, Option.map_some', hmin]
          refine ⟨_, rfl, ?_, by rw [List.length_set]; exact hL2⟩
          intro pos node h hne
          by_cases hpos : pos = i + 1
          · subst hpos
            by_cases hlt : i + 1 < ns2.length
            · rw [List.getD_eq_getElem?_getD, List.getElem?_set, if_pos rfl, if_pos hlt] at h
              simp only [Option.getD_some] at h
              rcases List.mem_append.mp h with h | h
              · exact hH2 _ node h hne
              · simp only [List.mem_singleton] at h
                subst h
                exact ⟨e, hge⟩
            · rw [List.getD_eq_getElem?_getD, List.getElem?_set, if_pos rfl, if_neg hlt] at h
              simp at h
          · rw [List.getD_eq_getElem?_getD, List.getElem?_set,
              if_neg (fun hc => hpos hc.symm)] at h
            exact hH2 pos node (by rw [List.getD_eq_getElem?_getD]; exact h) hne

/-- C10: every handle stored in the lattice is valid — it names a present
    key of the entry cache with an in-range local index — and this stays true
    through the whole `transliterate` call, so the `get_entry` calls of the
    forward pass (and of backtrack on entry nodes) are in bounds: the forward
    pass itself never panics on `get_entry`. -/
theorem claim_C10 (d : RtDict) (chars : List Char) :
    ∃ lat, buildLattice d chars = some lat ∧
      (∀ pos item, item ∈ lat.getD pos [] →
        ∃ es e, d.index.lookup item.1.1 = some es ∧ item.1.2 < es.length ∧
          es[item.1.2]? = some e ∧ get_entry d item.1.1 item.1.2 = some e) ∧
      ∃ ns, forwardPass d lat chars.length = some ns ∧
        ∀ pos node, node ∈ ns.getD pos [] → node.entry_char ≠ nulChar →
          ∃ e, get_entry d node.entry_char node.entry_local_idx = some e := by
  obtain ⟨lat, hlat, hinv⟩ := buildLattice_spec d chars
  obtain ⟨ns, hns, hH, _⟩ := forwardPass_handles d chars lat hinv
  refine ⟨lat, hlat, ?_, ns, hns, hH⟩
  intro pos item hitem
  obtain ⟨es, e, hes, he, _, _, _⟩ := hinv.2 pos item hitem
  refine ⟨es, e, hes, ?_, he, by rw [get_entry, hes]; exact he⟩
  exact (List.getElem?_eq_some_iff.mp he).1

/-! ## C6: the Viterbi cost invariant

`walkPath` reconstructs, purely from back-pointers, the path that backtrack
walks (in source order, BOS excluded); `pathCost` is the quantity named by the
claim: each fallback segment contributes 10000 and each entry segment
contributes `word_cost + matrix_cost(prev_pos_id, pos_id)` with
`prev_pos_id = 0` after BOS or a fallback node. -/

/-- Reconstruct the node path ending at `(pos, idx)` by following
    back-pointers (source order; the BOS sentinel is not included). -/
def walkPath (nodes : List (List LatticeNode)) : Nat → Nat → Nat → Option (List LatticeNode)
  | 0, _, _ => none
  | fuel + 1, pos, idx =>
    if pos = 0 then some []
    else
      match (nodes.getD pos [])[idx]? with
      | none => none
      | some node =>
        if node.start_pos = 0 ∧ node.end_pos = 0 then some []
        else
          match node.prev_node with
          | some pidx => (walkPath nodes fuel node.start_pos pidx).map (· ++ [node])
          | none => some [node]

/-- The cost contribution of one path segment, given the previous path node
    (`none` at the start of the path). -/
def segCost (d : RtDict) (prev : Option LatticeNode) (node : LatticeNode) : Int :=
  if node.entry_char = nulChar then 10000
  else
    match get_entry d node.entry_char node.entry_local_idx with
    | none => 0
    | some e =>
      e.word_cost + get_matrix_cost d.matrix d.matrix_size
        (match prev with
         | none => 0
         | some pn =>
           if pn.entry_char = nulChar then 0
           else
             match get_entry d pn.entry_char pn.entry_local_idx with
             | none => 0
             | some pe => pe.pos_id)
        e.pos_id

/-- Total cost of a path: 10000 per fallback segment plus
    `word_cost + matrix_cost` per entry segment. -/
def pathCost (d : RtDict) : Option LatticeNode → List LatticeNode → Int
  | _, [] => 0
  | prev, n :: rest => segCost d prev n + pathCost d (some n) rest

/-- The per-step cost increment recorded by the forward pass, phrased against
    the stored predecessor node. -/
def stepIncr (d : RtDict) (prev node : LatticeNode) : Int :=
  if node.entry_char = nulChar then 10000
  else
    match get_entry d node.entry_char node.entry_local_idx with
    | none => 0
    | some e =>
      e.word_cost + get_matrix_cost d.matrix d.matrix_size
        (if node.start_pos = 0 ∨ prev.entry_char = nulChar then 0
         else
           match get_entry d prev.entry_char prev.entry_local_idx with
           | none => 0
           | some pe => pe.pos_id)
        e.pos_id

theorem stepIncr_eq_segCost_none (d : RtDict) (prev node : LatticeNode)
    (h : prev.entry_char = nulChar) :
    stepIncr d prev node = segCost d none node := by
  rw [stepIncr, segCost]
  by_cases hn : node.entry_char = nulChar
  · rw [if_pos hn, if_pos hn]
  · rw [if_neg hn, if_neg hn]
    cases get_entry d node.entry_char node.entry_local_idx with
    | none => rfl
    | some e =>
      have : (node.start_pos = 0 ∨ prev.entry_char = nulChar) := Or.inr h
      rw [if_pos this]

theorem stepIncr_eq_segCost_some (d : RtDict) (prev node : LatticeNode)
    (h : node.start_pos ≠ 0) :
    stepIncr d prev node = segCost d (some prev) node := by
  rw [stepIncr, segCost]
  by_cases hn : node.entry_char = nulChar
  · rw [if_pos hn, if_pos hn]
  · rw [if_neg hn, if_neg hn]
    cases get_entry d node.entry_char node.entry_local_idx with
    | none => rfl
    | some e =>
      by_cases hp : prev.entry_char = nulChar
      · rw [if_pos (Or.inr hp), if_pos hp]
      · rw [if_neg (by simp [h, hp]), if_neg hp]

theorem walkPath_mono (ns : List (List LatticeNode)) :
    ∀ f1 f2 pos idx r, f1 ≤ f2 → walkPath ns f1 pos idx = some r →
      walkPath ns f2 pos idx = some r := by
  intro f1
  induction f1 with
  | zero =>
    intro f2 pos idx r _ h
    rw [walkPath] at h
    cases h
  | succ f1 ih =>
    intro f2 pos idx r hle h
    obtain ⟨g, rfl⟩ : ∃ g, f2 = g + 1 := by
      cases f2
      · omega
      · exact ⟨_, rfl⟩
    rw [walkPath] at h ⊢
    by_cases hp : pos = 0
    · rw [if_pos hp] at h ⊢
      exact h
    · rw [if_neg hp] at h ⊢
      cases hnode : (ns.getD pos [])[idx]? with
      | none => rw [hnode] at h; cases h
      | some node =>
        simp only [hnode] at h ⊢
        by_cases hbos : node.start_pos = 0 ∧ node.end_pos = 0
        · rw [if_pos hbos] at h ⊢
          exact h
        · rw [if_neg hbos] at h ⊢
          cases hprev : node.prev_node with
          | none => simp only [hprev] at h ⊢; exact h
          | some pidx =>
            simp only [hprev] at h ⊢
            cases hrec : walkPath ns f1 node.start_pos pidx with
            | none => rw [hrec] at h; simp at h
            | some r0 =>
              rw [hrec] at h
              rw [ih g node.start_pos pidx r0 (by omega) hrec]
              exact h

theorem pathCost_concat (d : RtDict) :
    ∀ (l : List LatticeNode) (po : Option LatticeNode) (n : LatticeNode),
      pathCost d po (l ++ [n]) =
        pathCost d po l +
          segCost d (match l.getLast? with | none => po | some x => some x) n := by
  intro l
  induction l with
  | nil =>
    intro po n
    simp [pathCost]
  | cons x rest ih =>
    intro po n
    simp only [List.cons_append, pathCost, List.append_eq]
    rw [ih (some x) n]
    have hlast : (match (x :: rest).getLast? with | none => some x | some y => some y) =
        (match rest.getLast? with | none => some x | some y => some y) := by
      cases rest with
      | nil => simp
      | cons y t => rw [List.getLast?_cons_cons]
    rw [← hlast]
    have : (match (x :: rest).getLast? with | none => po | some y => some y) =
        (match (x :: rest).getLast? with | none => some x | some y => some y) := by
      cases h : (x :: rest).getLast? with
      | none =>
        exfalso
        have : x :: rest ≠ [] := by simp
        exact this (List.getLast?_eq_none_iff.mp h)
      | some y => rfl
    rw [this]
    ring

/-- `foldlM` over `Option` preserves an invariant along a successful run. -/
theorem foldlM_option_pres {α β : Type} (f : β → α → Option β) (P : β → Prop) :
    ∀ (l : List α) (init b : β), l.foldlM f init = some b → P init →
      (∀ x a, a ∈ l → P x → ∀ y, f x a = some y → P y) → P b := by
  intro l
  induction l with
  | nil =>
    intro init b h hP _
    rw [List.foldlM_nil] at h
    cases h
    exact hP
  | cons a l ih =>
    intro init b h hP hstep
    rw [List.foldlM_cons] at h
    cases hf : f init a with
    | none => rw [hf] at h; exact Option.noConfusion h
    | some mid =>
      rw [hf] at h
      have h2 : List.foldlM f mid l = some b := h
      have hmid : P mid := hstep init a (by simp) hP mid hf
      exact ih mid b h2 hmid (fun x y hy hP2 z hz => hstep x y (by simp [hy]) hP2 z hz)

/-- Structural invariant of the `nodes` array maintained by the forward pass:
    column 0 is exactly the BOS sentinel, and every later node records its
    column, a strictly earlier start, and a back-pointer to a predecessor
    whose cost it extends by exactly its step increment. -/
def FwdInv (d : RtDict) (len : Nat) (ns : List (List LatticeNode)) : Prop :=
  ns.length = len + 1 ∧
  ns.getD 0 [] = [bosNode] ∧
  ∀ pos node, 1 ≤ pos → node ∈ ns.getD pos [] →
    node.end_pos = pos ∧ node.start_pos < pos ∧
    ∃ pidx prev, node.prev_node = some pidx ∧
      (ns.getD node.start_pos [])[pidx]? = some prev ∧
      node.cost = prev.cost + stepIncr d prev node

/-- Appending well-founded nodes to one column preserves `FwdInv`. -/
theorem FwdInv_set_append (d : RtDict) (len : Nat) (ns : List (List LatticeNode))
    (pos : Nat) (new : List LatticeNode) (hInv : FwdInv d len ns) (hpos : 1 ≤ pos)
    (hnew : ∀ node ∈ new, node.end_pos = pos ∧ node.start_pos < pos ∧
      ∃ pidx prev, node.prev_node = some pidx ∧
        (ns.getD node.start_pos [])[pidx]? = some prev ∧
        node.cost = prev.cost + stepIncr d prev node) :
    FwdInv d len (ns.set pos (ns.getD pos [] ++ new)) := by
  obtain ⟨hlen, hbos, hnodes⟩ := hInv
  have hget : ∀ q, q ≠ pos →
      (ns.set pos (ns.getD pos [] ++ new)).getD q [] = ns.getD q [] := by
    intro q hq
    rw [List.getD_eq_getElem?_getD, List.getElem?_set, if_neg (fun hc => hq hc.symm),
      ← List.getD_eq_getElem?_getD]
  have hgetpos : (ns.set pos (ns.getD pos [] ++ new)).getD pos [] =
      ns.getD pos [] ++ new ∨ pos ≥ ns.length := by
    by_cases hlt : pos < ns.length
    · left
      rw [List.getD_eq_getElem?_getD, List.getElem?_set, if_pos rfl, if_pos hlt]
      rfl
    · right
      omega
  have hcolref : ∀ sp (pidx : Nat) (prev : LatticeNode), sp < pos →
      (ns.getD sp [])[pidx]? = some prev →
      ((ns.set pos (ns.getD pos [] ++ new)).getD sp [])[pidx]? = some prev := by
    intro sp pidx prev hsp h
    rw [hget sp (by omega)]
    exact h
  refine ⟨by rw [List.length_set]; exact hlen, ?_, ?_⟩
  · rw [hget 0 (by omega)]
    exact hbos
  · intro q node hq hmem
    by_cases hqpos : q = pos
    · subst hqpos
      rcases hgetpos with hg | hg
      · rw [hg] at hmem
        rcases List.mem_append.mp hmem with h | h
        · obtain ⟨h1, h2, pidx, prev, h3, h4, h5⟩ := hnodes q node hq h
          refine ⟨h1, h2, pidx, prev, h3, ?_, h5⟩
          rw [hget node.start_pos (by omega)]
          exact h4
        · obtain ⟨h1, h2, pidx, prev, h3, h4, h5⟩ := hnew node h
          refine ⟨h1, h2, pidx, prev, h3, ?_, h5⟩
          rw [hget node.start_pos (by omega)]
          exact h4
      · exfalso
        rw [List.getD_eq_getElem?_getD] at hmem
        rw [List.getElem?_set, if_pos rfl, if_neg (by omega)] at hmem
        simp at hmem
    · rw [hget q hqpos] at hmem
      obtain ⟨h1, h2, pidx, prev, h3, h4, h5⟩ := hnodes q node hq hmem
      refine ⟨h1, h2, pidx, prev, h3, ?_, h5⟩
      by_cases hsp : node.start_pos = pos
      · subst hsp
        rcases hgetpos with hg | hg
        · rw [hg]
          have hb := (List.getElem?_eq_some_iff.mp h4).1
          rw [List.getElem?_append_left hb]
          exact h4
        · exfalso
          have hcol0 : ns.getD node.start_pos [] = [] := by
            rw [List.getD_eq_getElem?_getD, List.getElem?_eq_none (by omega)]
            rfl
          rw [hcol0] at h4
          simp at h4
      · rw [hget node.start_pos hsp]
        exact h4

/-- The forward pass establishes `FwdInv` (dictionaries with nonempty
    surfaces and no `'\0'` index key — true of every compiled dictionary). -/
theorem forwardPass_inv (d : RtDict) (chars : List Char) (lat : List (List LatItem))
    (hlat : LatInv d chars lat)
    (hne : ∀ p ∈ d.index, ∀ e ∈ p.2, e.surface ≠ [])
    (hnul : d.index.lookup nulChar = none)
    (ns : List (List LatticeNode))
    (h : forwardPass d lat chars.length = some ns) :
    FwdInv d chars.length ns := by
  rw [forwardPass] at h
  apply foldlM_option_pres _ (FwdInv d chars.length) _ _ _ h
  · refine ⟨by simp, ?_, ?_⟩
    · rw [List.getD_eq_getElem?_getD, List.getElem?_set, if_pos rfl, if_pos (by simp)]
      rfl
    · intro pos node hge hmem
      exfalso
      rw [List.getD_eq_getElem?_getD, List.getElem?_set, if_neg (by omega)] at hmem
      by_cases hlt : pos < chars.length + 1
      · rw [List.getElem?_replicate, if_pos hlt] at hmem
        simp at hmem
      · rw [List.getElem?_replicate, if_neg hlt] at hmem
        simp at hmem
  · intro ns2 i hi hP y hy
    have hilen : i < chars.length := List.mem_range.mp hi
    show FwdInv d chars.length y
    replace hy : processColumn d lat ns2 (i + 1) = some y := hy
    rw [processColumn] at hy
    by_cases hemp : lat.getD (i + 1) [] = []
    · rw [if_pos hemp] at hy
      by_cases hprev : ns2.getD (i + 1 - 1) [] = []
      · rw [if_pos hprev] at hy
        cases hy
        exact hP
      · rw [if_neg hprev] at hy
        cases hy
        apply FwdInv_set_append d chars.length ns2 (i + 1) _ hP (by omega)
        intro node hmem
        rw [fallbackColumn] at hmem
        obtain ⟨j, hj, hjeq⟩ := List.mem_map.mp hmem
        rw [List.mem_range] at hj
        subst hjeq
        have hcol : ∀ (l : List LatticeNode) (k : Nat), k < l.length →
            l[k]? = some (l.getD k bosNode) := by
          intro l k hk
          rw [List.getElem?_eq_getElem hk, List.getD_eq_getElem?_getD,
            List.getElem?_eq_getElem hk]
          rfl
        refine ⟨rfl, by show i + 1 - 1 < i + 1; omega, j,
          (ns2.getD (i + 1 - 1) []).getD j bosNode, rfl, ?_, ?_⟩
        · exact hcol _ j hj
        · show ((ns2.getD (i + 1 - 1) []).getD j bosNode).cost + 10000 = _
          rw [stepIncr, if_pos rfl]
    · rw [if_neg hemp] at hy
      apply foldlM_option_pres _ (FwdInv d chars.length) _ _ _ hy hP
      intro ns3 item hitem hP3 y3 hy3
      by_cases hcol : ns3.getD item.2 [] = []
      · rw [if_pos hcol] at hy3
        cases hy3
        exact hP3
      · rw [if_neg hcol] at hy3
        obtain ⟨es, e, hes, he, hpos, hle, htake⟩ := hlat.2 (i + 1) item hitem
        have hge : get_entry d item.1.1 item.1.2 = some e := by
          rw [get_entry, hes]
          exact he
        simp only [hge] at hy3
        have hnonnul : item.1.1 ≠ nulChar := by
          intro hc
          rw [hc, hnul] at hes
          cases hes
        have hsurfne : e.surface ≠ [] := by
          have hmem := lookup_mem d.index item.1.1 es hes
          exact hne (item.1.1, es) hmem e (List.getElem?_mem he)
        have hstart : item.2 < i + 1 := by
          have : e.surface.length ≠ 0 := by
            intro hc
            exact hsurfne (List.eq_nil_of_length_eq_zero hc)
          omega
        cases hbp : bestPred d e item.2 (ns3.getD item.2 []) with
        | none => rw [hbp] at hy3; exact Option.noConfusion hy3
        | some obest =>
          rw [hbp] at hy3
          cases obest with
          | none =>
            cases hy3
            exact hP3
          | some best =>
            obtain ⟨bi, bc⟩ := best
            cases hy3
            rw [bestPred] at hbp
            cases hts : totalsOf d e item.2 (ns3.getD item.2 []) with
            | none => rw [hts] at hbp; cases hbp
            | some ts =>
              rw [hts] at hbp
              simp only [Option.map_some', Option.some.injEq] at hbp
              obtain ⟨hbi, hbc, _, _⟩ := argminFirst_spec ts bi bc hbp
              obtain ⟨htlen, hpt⟩ := totalsOf_spec d e item.2 _ _ hts
              have hbicol : bi < (ns3.getD item.2 []).length := by omega
              have hnt := hpt bi (by omega)
              set prev := (ns3.getD item.2 []).getD bi bosNode with hprevdef
              rw [nodeTotal] at hnt
              cases hpid : prevPosId d item.2 prev with
              | none => rw [hpid] at hnt; cases hnt
              | some pid =>
                rw [hpid] at hnt
                simp only [Option.map_some', Option.some.injEq] at hnt
                apply FwdInv_set_append d chars.length ns3 (i + 1) _ hP3 (by omega)
                intro node hmem
                simp only [List.mem_singleton] at hmem
                subst hmem
                refine ⟨rfl, hstart, bi, prev, rfl, ?_, ?_⟩
                · show ((ns3.getD item.2 [])[bi]? = some prev)
                  rw [List.getD_eq_getElem?_getD] at hprevdef
                  rw [List.getElem?_eq_getElem hbicol]
                  rw [hprevdef]
                  rw [List.getElem?_eq_getElem hbicol]
                  rfl
                · have hstep_val : stepIncr d prev
                      ⟨item.2, i + 1, item.1.1, item.1.2, bc, some bi⟩ =
                      e.word_cost + get_matrix_cost d.matrix d.matrix_size pid e.pos_id := by
                    rw [stepIncr]
                    rw [if_neg hnonnul]
                    show (match get_entry d item.1.1 item.1.2 with
                      | none => (0 : Int)
                      | some e =>
                        e.word_cost + get_matrix_cost d.matrix d.matrix_size
                          (if item.2 = 0 ∨ prev.entry_char = nulChar then 0
                           else
                             match get_entry d prev.entry_char prev.entry_local_idx with
                             | none => (0 : Nat)
                             | some pe => pe.pos_id)
                          e.pos_id) = _
                    rw [hge]
                    rw [prevPosId] at hpid
                    by_cases hc : item.2 = 0 ∨ prev.entry_char = nulChar
                    · rw [if_pos hc]
                      rw [if_pos hc] at hpid
                      cases hpid
                      rfl
                    · rw [if_neg hc]
                      rw [if_neg hc] at hpid
                      cases hpe : get_entry d prev.entry_char prev.entry_local_idx with
                      | none => rw [hpe] at hpid; simp at hpid
                      | some pe =>
                        rw [hpe] at hpid
                        simp only [Option.map_some', Option.some.injEq] at hpid
                        simp only [hpe]
                        rw [hpid]
                  rw [hstep_val]
                  show bc = prev.cost +
                    (e.word_cost + get_matrix_cost d.matrix d.matrix_size pid e.pos_id)
                  omega

/-- Under `FwdInv`, walking back-pointers from any node reconstructs a path
    whose cost sum equals the node's cumulative cost. -/
theorem walk_cost (d : RtDict) (len : Nat) (ns : List (List LatticeNode))
    (hInv : FwdInv d len ns) :
    ∀ pos, 1 ≤ pos → ∀ idx node, (ns.getD pos [])[idx]? = some node →
      ∃ path, walkPath ns (pos + 1) pos idx = some (path ++ [node]) ∧
        node.cost = pathCost d none (path ++ [node]) := by
  obtain ⟨hlen, hbos, hnodes⟩ := hInv
  intro pos
  induction pos using Nat.strong_induction_on with
  | _ pos ih =>
    intro hpos idx node hnode
    have hmem : node ∈ ns.getD pos [] := List.getElem?_mem hnode
    obtain ⟨hend, hstart, pidx, prev, hprev, hprevat, hcost⟩ := hnodes pos node hpos hmem
    rw [walkPath, if_neg (by omega : ¬ pos = 0)]
    simp only [hnode]
    have hnotbos : ¬ (node.start_pos = 0 ∧ node.end_pos = 0) := by
      intro hc
      omega
    rw [if_neg hnotbos]
    simp only [hprev]
    by_cases hsp : node.start_pos = 0
    · have hprevbos : prev = bosNode := by
        rw [hsp, hbos] at hprevat
        cases pidx with
        | zero => simpa using hprevat.symm
        | succ k => simp at hprevat
      obtain ⟨f, rfl⟩ : ∃ f, pos = f + 1 := by
        cases pos
        · omega
        · exact ⟨_, rfl⟩
      refine ⟨[], ?_, ?_⟩
      · rw [hsp, walkPath]
        simp
      · rw [hcost, hprevbos]
        rw [stepIncr_eq_segCost_none d bosNode node rfl]
        rw [List.nil_append, pathCost, pathCost]
        show bosNode.cost + segCost d none node = segCost d none node + 0
        rw [show bosNode.cost = 0 from rfl]
        ring
    · have hsp1 : 1 ≤ node.start_pos := by omega
      obtain ⟨path0, hwalk0, hcost0⟩ := ih node.start_pos (by omega) hsp1 pidx prev hprevat
      have hwalk : walkPath ns pos node.start_pos pidx = some (path0 ++ [prev]) :=
        walkPath_mono ns (node.start_pos + 1) pos node.start_pos pidx _ (by omega) hwalk0
      refine ⟨path0 ++ [prev], ?_, ?_⟩
      · rw [hwalk]
        rfl
      · rw [hcost, hcost0, pathCost_concat d (path0 ++ [prev]) none node]
        rw [List.getLast?_concat]
        rw [stepIncr_eq_segCost_some d prev node hsp]

/-- C6: the cumulative cost of the node selected at position N equals the
    path cost of the reconstructed back-pointer path: the sum of
    `word_cost + matrix_cost(prev_pos_id, pos_id)` over entry segments
    (`prev_pos_id = 0` after BOS or a fallback) plus 10000 per fallback
    segment.  Hypotheses: the dictionary has no empty surfaces and no `'\0'`
    index key (true of every compiled dictionary), and the input is
    nonempty. -/
theorem claim_C6 (d : RtDict) (chars : List Char)
    (hne : ∀ p ∈ d.index, ∀ e ∈ p.2, e.surface ≠ [])
    (hnul : d.index.lookup nulChar = none)
    (lat : List (List LatItem)) (ns : List (List LatticeNode))
    (hlat : buildLattice d chars = some lat)
    (hfwd : forwardPass d lat chars.length = some ns)
    (idx : Nat) (hmin : minCostIdx (ns.getD chars.length []) = some idx)
    (hlen1 : 1 ≤ chars.length) :
    ∃ path node,
      (ns.getD chars.length [])[idx]? = some node ∧
      walkPath ns (chars.length + 1) chars.length idx = some (path ++ [node]) ∧
      node.cost = pathCost d none (path ++ [node]) := by
  obtain ⟨lat2, hlat2, hinv⟩ := buildLattice_spec d chars
  rw [hlat] at hlat2
  cases hlat2
  have hfwdinv := forwardPass_inv d chars lat hinv hne hnul ns hfwd
  have hidx : idx < (ns.getD chars.length []).length := by
    rw [minCostIdx] at hmin
    cases ham : argminFirst ((ns.getD chars.length []).map (·.cost)) with
    | none => rw [ham] at hmin; cases hmin
    | some p =>
      rw [ham] at hmin
      simp only [Option.map_some', Option.some.injEq] at hmin
      have := (argminFirst_spec _ p.1 p.2 (by rw [ham])).1
      rw [List.length_map] at this
      omega
  have hnode : (ns.getD chars.length [])[idx]? =
      some ((ns.getD chars.length []).getD idx bosNode) := by
    rw [List.getElem?_eq_getElem hidx]
    congr 1
    exact (List.getD_eq_getElem _ bosNode hidx).symm
  obtain ⟨path, hwalk, hcost⟩ := walk_cost d chars.length ns hfwdinv chars.length hlen1 idx
    ((ns.getD chars.length []).getD idx bosNode) hnode
  exact ⟨path, (ns.getD chars.length []).getD idx bosNode, hnode, hwalk, hcost⟩

theorem claim_C6_witness :
    buildLattice demoRt ['山', '道'] = some [[], [(('山', 0), 0)], [(('山', 1), 0)]] ∧
    ∃ path node,
      (([[bosNode],
         [⟨0, 1, '山', 0, 100, some 0⟩],
         [⟨0, 2, '山', 1, 50, some 0⟩]] : List (List LatticeNode)).getD 2 [])[(0 : Nat)]? =
        some node ∧
      walkPath [[bosNode],
         [⟨0, 1, '山', 0, 100, some 0⟩],
         [⟨0, 2, '山', 1, 50, some 0⟩]] 3 2 0 = some (path ++ [node]) ∧
      node.cost = pathCost demoRt none (path ++ [node]) :=
  ⟨by decide,
   claim_C6 demoRt ['山', '道'] (by decide) (by decide)
     [[], [(('山', 0), 0)], [(('山', 1), 0)]]
     [[bosNode],
      [⟨0, 1, '山', 0, 100, some 0⟩],
      [⟨0, 2, '山', 1, 50, some 0⟩]]
     (by decide) (by decide) 0 (by decide) (by decide)⟩

theorem claim_C10_witness :
    ∃ lat, buildLattice demoRt ['山', '道'] = some lat ∧
      (∀ pos item, item ∈ lat.getD pos [] →
        ∃ es e, demoRt.index.lookup item.1.1 = some es ∧ item.1.2 < es.length ∧
          es[item.1.2]? = some e ∧ get_entry demoRt item.1.1 item.1.2 = some e) ∧
      ∃ ns, forwardPass demoRt lat (['山', '道'] : List Char).length = some ns ∧
        ∀ pos node, node ∈ ns.getD pos [] → node.entry_char ≠ nulChar →
          ∃ e, get_entry demoRt node.entry_char node.entry_local_idx = some e :=
  claim_C10 demoRt ['山', '道']

/-! ## Binary emission (converter.rs `write_binary`) and the loader
    (lib.rs `Dictionary::load`, `bulk_read_entries`, `read_reading_at`)
    at byte level.

The zeekstd compression layer is out of scope (an opaque seekable stream), so
the "compressed data segment" is the plain decompressed byte list and decoder
reads are direct list indexing. -/

/-- State of `write_binary`'s index-building loop. -/
structure IdxState where
  index : List (Char × Nat × Nat)
  cur : Option Char
  curOff : Nat
  curCount : Nat
  off : Nat
deriving DecidableEq

/-- One iteration of the index-building loop over `entries`. -/
def idxStep (s : IdxState) (e : Entry) : IdxState :=
  let s1 :=
    match e.surface with
    | [] => s
    | fc :: _ =>
      if s.cur = some fc then
        { s with curCount := s.curCount + 1 }
      else
        { index :=
            (match s.cur with
             | some ch => s.index ++ [(ch, s.curOff, s.curCount)]
             | none => s.index),
          cur := some fc, curOff := s.off, curCount := 1, off := s.off }
  { s1 with off := s1.off + 1 + (utf8Enc e.surface).length + 9 }

/-- `write_binary`'s index: runs of identical first characters with their
    byte offsets and counts, the final run flushed after the loop. -/
def buildIndex (entries : List Entry) : List (Char × Nat × Nat) :=
  let s := entries.foldl idxStep ⟨[], none, 0, 0, 0⟩
  match s.cur with
  | some ch => s.index ++ [(ch, s.curOff, s.curCount)]
  | none => s.index

/-- Serialized form of one entry record:
    `surf_len(u8) ++ surface ++ read_off(u32) ++ read_len(u8) ++ pos_id(u16)
    ++ cost(i16)`. -/
def recBytes (r : EntryRec) : List Nat :=
  (r.surf.length % 256) :: (r.surf ++ u32Bytes r.readOff ++ [r.readLen] ++
    u16Bytes r.pos_id ++ i16Bytes r.cost)

/-- The variable-length entry array of the data segment. -/
def entrySegment (recs : List EntryRec) : List Nat := recs.flatMap recBytes

/-- `entry_array_size`: sum of `1 + surf_len + 9` over the records. -/
def entryArraySize (recs : List EntryRec) : Nat :=
  (recs.map (fun r => 1 + r.surf.length + 9)).sum

/-- The 16-byte header: magic, version 1, `S`, entry count, strings offset. -/
def headerBytes (numEntries soff matrix_size : Nat) : List Nat :=
  [77, 85, 67, 65] ++ u16Bytes 1 ++ u16Bytes matrix_size ++
    u32Bytes numEntries ++ u32Bytes soff

/-- The whole `MUCA` file as written by `write_binary` (data segment modelled
    decompressed). -/
def writeBinary (entries : List Entry) (matrix : List Int) (matrix_size : Nat) : List Nat :=
  headerBytes entries.length (entryArraySize (buildRecords entries).2) matrix_size ++
    (matrix.flatMap i16Bytes ++
      (u32Bytes (buildIndex entries).length ++
        ((buildIndex entries).flatMap
            (fun k => u32Bytes k.1.toNat ++ u32Bytes k.2.1 ++ u16Bytes k.2.2) ++
          (entrySegment (buildRecords entries).2 ++ (buildRecords entries).1))))

/-- Result of a loader operation: `ok`, an error returned to the caller
    (`?` on an `io::Result` or an explicit `Err`), or a panic (`unwrap`). -/
inductive Outcome (α : Type) where
  | ok : α → Outcome α
  | err : String → Outcome α
  | panic : Outcome α
deriving DecidableEq

/-- `read_exact` on a byte stream: `n` bytes or failure. -/
def readExact (n : Nat) (bs : List Nat) : Option (List Nat × List Nat) :=
  if n ≤ bs.length then some (bs.take n, bs.drop n) else none

/-- Parse consecutive little-endian `i16` values (the matrix). -/
def parseI16s : List Nat → List Int
  | b0 :: b1 :: rest => i16OfNat (readU16 b0 b1) :: parseI16s rest
  | _ => []

/-- The in-memory result of `Dictionary::load`: the decompressed data segment
    plus the parsed header fields, matrix and first-character index
    (the `HashMap` is an insert-shadowing association list: newest first). -/
structure LoadedDict where
  data : List Nat
  strings_offset : Nat
  num_entries : Nat
  index : List (Char × Nat × Nat)
  matrix : List Int
  matrix_size : Nat
deriving DecidableEq

/-- The index-reading loop of `Dictionary::load`.  `char::from_u32(..)
    .unwrap()` panics on a surrogate or out-of-range scalar. -/
def readIndexEntries : Nat → List Nat → List (Char × Nat × Nat) →
    Outcome (List (Char × Nat × Nat) × List Nat)
  | 0, bs, acc => .ok (acc, bs)
  | n + 1, bs, acc =>
    match readExact 4 bs with
    | none => .err "io"
    | some (cb, bs1) =>
      if 55296 ≤ readU32 (cb.getD 0 0) (cb.getD 1 0) (cb.getD 2 0) (cb.getD 3 0) ∧
          readU32 (cb.getD 0 0) (cb.getD 1 0) (cb.getD 2 0) (cb.getD 3 0) < 57344 then
        .panic
      else if 1114112 ≤ readU32 (cb.getD 0 0) (cb.getD 1 0) (cb.getD 2 0) (cb.getD 3 0) then
        .panic
      else
        match readExact 4 bs1 with
        | none => .err "io"
        | some (ob, bs2) =>
          match readExact 2 bs2 with
          | none => .err "io"
          | some (tb, bs3) =>
            readIndexEntries n bs3
              ((Char.ofNat (readU32 (cb.getD 0 0) (cb.getD 1 0) (cb.getD 2 0) (cb.getD 3 0)),
                readU32 (ob.getD 0 0) (ob.getD 1 0) (ob.getD 2 0) (ob.getD 3 0),
                readU16 (tb.getD 0 0) (tb.getD 1 0)) :: acc)

/-- lib.rs `Dictionary::load` over a byte list. -/
def loadDict (file : List Nat) : Outcome LoadedDict :=
  match readExact 16 file with
  | none => .err "io"
  | some (header, rest1) =>
    if header.take 4 ≠ [77, 85, 67, 65] then .err "Invalid magic number"
    else
      match readExact (readU16 (header.getD 6 0) (header.getD 7 0) *
          readU16 (header.getD 6 0) (header.getD 7 0) * 2) rest1 with
      | none => .err "io"
      | some (mb, rest2) =>
        match readExact 4 rest2 with
        | none => .err "io"
        | some (nb, rest3) =>
          match readIndexEntries
              (readU32 (nb.getD 0 0) (nb.getD 1 0) (nb.getD 2 0) (nb.getD 3 0)) rest3 [] with
          | .err s => .err s
          | .panic => .panic
          | .ok (idx, rest4) =>
            .ok ⟨rest4,
              readU32 (header.getD 12 0) (header.getD 13 0) (header.getD 14 0)
                (header.getD 15 0),
              readU32 (header.getD 8 0) (header.getD 9 0) (header.getD 10 0)
                (header.getD 11 0),
              idx, parseI16s mb,
              readU16 (header.getD 6 0) (header.getD 7 0)⟩

/-- Parse one serialized entry record from the data segment
    (`bulk_read_entries` loop body); `none` models the `unwrap` panics on a
    short read or invalid UTF-8. -/
def parseEntryRec (bs : List Nat) : Option (DictEntryRt × List Nat) :=
  match readExact 1 bs with
  | none => none
  | some (lb, bs1) =>
    match readExact (lb.getD 0 0) bs1 with
    | none => none
    | some (sb, bs2) =>
      match readExact 9 bs2 with
      | none => none
      | some (mb, bs3) =>
        match utf8Dec sb with
        | none => none
        | some surface =>
          some (⟨surface,
            readU16 (mb.getD 5 0) (mb.getD 6 0),
            i16OfNat (readU16 (mb.getD 7 0) (mb.getD 8 0)),
            readU32 (mb.getD 0 0) (mb.getD 1 0) (mb.getD 2 0) (mb.getD 3 0),
            mb.getD 4 0⟩, bs3)

/-- Read `count` entry records. -/
def parseEntries : Nat → List Nat → Option (List DictEntryRt)
  | 0, _ => some []
  | n + 1, bs =>
    match parseEntryRec bs with
    | none => none
    | some (e, rest) => (parseEntries n rest).map (e :: ·)

/-- lib.rs `bulk_read_entries`: index lookup is `unwrap`ped, and every read
    failure inside the loop is an `unwrap` panic — never an error return. -/
def bulkReadEntries (d : LoadedDict) (c : Char) : Outcome (List DictEntryRt) :=
  match d.index.lookup c with
  | none => .panic
  | some oc =>
    match parseEntries oc.2 (d.data.drop oc.1) with
    | none => .panic
    | some es => .ok es

/-- lib.rs `read_reading_at`: all failures are `unwrap` panics. -/
def readReading (d : LoadedDict) (off len : Nat) : Outcome (List Char) :=
  if ((d.data.drop (d.strings_offset + off)).take len).length < len then .panic
  else
    match utf8Dec ((d.data.drop (d.strings_offset + off)).take len) with
    | none => .panic
    | some s => .ok s

/-- A structurally valid file whose data segment is truncated to nothing:
    header and index parse, but the per-character block for `山` is missing. -/
def c9File : List Nat :=
  [77, 85, 67, 65] ++ u16Bytes 1 ++ u16Bytes 0 ++ u32Bytes 1 ++ u32Bytes 0 ++
    u32Bytes 1 ++ u32Bytes 23665 ++ u32Bytes 0 ++ u16Bytes 1

/-- C9 counterexample: on a truncated data segment, `entries_for`
    (`bulk_read_entries`) panics (`read_exact(..).unwrap()`) instead of
    returning an error to the caller as the claim states. -/
theorem claim_C9_cx :
    loadDict c9File = Outcome.ok ⟨[], 0, 1, [('山', 0, 1)], [], 0⟩ ∧
    bulkReadEntries ⟨[], 0, 1, [('山', 0, 1)], [], 0⟩ '山' = Outcome.panic := by
  constructor <;> decide

/-- C9 (amended): `Dictionary::load` returns an error on a short header and
    on an invalid magic (and likewise on truncated matrix/index sections via
    the same `?` propagation), but `bulk_read_entries` and `read_reading_at`
    never return an error — each of their failure modes (truncation, invalid
    UTF-8, decoder errors) is an `unwrap` panic.  (An invalid Unicode scalar
    in the index also panics inside `load` itself.) -/
theorem claim_C9 :
    (∀ bytes : List Nat, bytes.length < 16 → loadDict bytes = .err "io") ∧
    (∀ bytes : List Nat, 16 ≤ bytes.length → bytes.take 4 ≠ [77, 85, 67, 65] →
      loadDict bytes = .err "Invalid magic number") ∧
    (∀ (d : LoadedDict) (c : Char) (s : String), bulkReadEntries d c ≠ .err s) ∧
    (∀ (d : LoadedDict) (off len : Nat) (s : String), readReading d off len ≠ .err s) := by
  refine ⟨?_, ?_, ?_, ?_⟩
  · intro bytes h
    rw [loadDict, readExact, if_neg (by omega)]
  · intro bytes h16 hmagic
    have hre : readExact 16 bytes = some (bytes.take 16, bytes.drop 16) := by
      rw [readExact, if_pos (by omega)]
    rw [loadDict]
    simp only [hre]
    rw [if_pos ?hcond]
    case hcond =>
      rw [List.take_take]
      have h414 : (4 : Nat) ⊓ 16 = 4 := rfl
      rw [h414]
      exact hmagic
  · intro d c s
    rw [bulkReadEntries]
    cases hl : d.index.lookup c with
    | none => simp
    | some oc =>
      cases hp : parseEntries oc.2 (d.data.drop oc.1) with
      | none => simp [hp]
      | some es => simp [hp]
  · intro d off len s
    rw [readReading]
    by_cases hlen : ((d.data.drop (d.strings_offset + off)).take len).length < len
    · rw [if_pos hlen]
      simp
    · rw [if_neg hlen]
      cases hd : utf8Dec ((d.data.drop (d.strings_offset + off)).take len) with
      | none => simp
      | some r => simp

theorem claim_C9_witness :
    ([] : List Nat).length < 16 ∧ loadDict [] = .err "io" ∧
      bulkReadEntries ⟨[], 0, 1, [('山', 0, 1)], [], 0⟩ '山' ≠ .err "io" :=
  ⟨by decide, claim_C9.1 [] (by decide),
   claim_C9.2.2.1 ⟨[], 0, 1, [('山', 0, 1)], [], 0⟩ '山' "io"⟩

/-! ## C2: compile → load round trip -/

/-- The entry list described by a list of per-first-character groups. -/
def flattenGroups (gs : List (Char × List Entry)) : List Entry :=
  (gs.map Prod.snd).flatten

/-- Serialized size of a group's entry records. -/
def groupBytesSize (g : List Entry) : Nat :=
  (g.map (fun e => 1 + (utf8Enc e.surface).length + 9)).sum

/-- The index `write_binary` produces for grouped entries: one record per
    group carrying the running byte offset. -/
def idxSpec : List (Char × List Entry) → Nat → List (Char × Nat × Nat)
  | [], _ => []
  | g :: rest, off => (g.1, off, g.2.length) :: idxSpec rest (off + groupBytesSize g.2)

/-- Group-level view of the index fold's state evolution. -/
def idxRun (s : IdxState) : List (Char × List Entry) → IdxState
  | [] => s
  | g :: rest =>
    idxRun
      { index := s.index ++
          (match s.cur with
           | some ch => [(ch, s.curOff, s.curCount)]
           | none => []),
        cur := some g.1, curOff := s.off, curCount := g.2.length,
        off := s.off + groupBytesSize g.2 } rest

theorem readExact_append (n : Nat) (a b : List Nat) (h : a.length = n) :
    readExact n (a ++ b) = some (a, b) := by
  rw [readExact, if_pos (by rw [List.length_append]; omega)]
  rw [← h, List.take_append_of_le_length le_rfl, List.take_length,
    List.drop_append_of_le_length le_rfl, List.drop_length, List.nil_append]

theorem flatMap_i16_length (matrix : List Int) :
    (matrix.flatMap i16Bytes).length = matrix.length * 2 := by
  induction matrix with
  | nil => rfl
  | cons v rest ih =>
    rw [List.flatMap_cons, List.length_append, ih]
    rw [show (i16Bytes v).length = 2 from rfl]
    rw [List.length_cons]
    ring

theorem parseI16s_roundtrip (matrix : List Int)
    (h : ∀ v ∈ matrix, -32768 ≤ v ∧ v < 32768) :
    parseI16s (matrix.flatMap i16Bytes) = matrix := by
  induction matrix with
  | nil => rfl
  | cons v rest ih =>
    have hv := h v (by simp)
    rw [List.flatMap_cons]
    rw [show i16Bytes v = [i16ToNat v % 256, i16ToNat v / 256 % 256] from rfl]
    rw [List.cons_append, List.cons_append, List.nil_append]
    rw [parseI16s]
    rw [readU16_u16Bytes (i16ToNat v) (i16ToNat_lt v)]
    rw [i16OfNat_i16ToNat v hv.1 hv.2]
    rw [ih (fun x hx => h x (by simp [hx]))]

theorem recBytes_length (r : EntryRec) :
    (recBytes r).length = 1 + r.surf.length + 9 := by
  rw [recBytes]
  simp [u32Bytes, u16Bytes, i16Bytes]
  omega

theorem entrySegment_length (recs : List EntryRec) :
    (entrySegment recs).length = entryArraySize recs := by
  induction recs with
  | nil => rfl
  | cons r rest ih =>
    rw [entrySegment, List.flatMap_cons, List.length_append,
      show (rest.flatMap recBytes) = entrySegment rest from rfl, ih,
      recBytes_length]
    rw [show entryArraySize (r :: rest) =
      (1 + r.surf.length + 9) + entryArraySize rest from by
        rw [entryArraySize, List.map_cons, List.sum_cons, entryArraySize]]

theorem entrySegment_append (a b : List EntryRec) :
    entrySegment (a ++ b) = entrySegment a ++ entrySegment b := by
  rw [entrySegment, entrySegment, entrySegment, List.flatMap_append]

theorem entryArraySize_append (a b : List EntryRec) :
    entryArraySize (a ++ b) = entryArraySize a + entryArraySize b := by
  rw [entryArraySize, entryArraySize, entryArraySize, List.map_append, List.sum_append]

theorem surface_head_cons (e : Entry) (c : Char) (h : e.surface.head? = some c) :
    ∃ t, e.surface = c :: t := by
  cases hs : e.surface with
  | nil => rw [hs] at h; cases h
  | cons fc t =>
    rw [hs] at h
    simp only [List.head?_cons, Option.some.injEq] at h
    exact ⟨t, by rw [h]⟩

theorem groupBytesSize_cons (e : Entry) (g : List Entry) :
    groupBytesSize (e :: g) = (1 + (utf8Enc e.surface).length + 9) + groupBytesSize g := by
  rw [groupBytesSize, List.map_cons, List.sum_cons, groupBytesSize]

theorem groupBytesSize_nil : groupBytesSize [] = 0 := rfl

theorem idxStep_run : ∀ (g : List Entry) (s : IdxState) (c : Char),
    (∀ e ∈ g, e.surface.head? = some c) → s.cur = some c →
    g.foldl idxStep s =
      { index := s.index, cur := s.cur, curOff := s.curOff,
        curCount := s.curCount + g.length, off := s.off + groupBytesSize g } := by
  intro g
  induction g with
  | nil =>
    intro s c _ _
    rw [List.foldl_nil, groupBytesSize]
    simp
  | cons e g' ih =>
    intro s c hall hcur
    obtain ⟨t, ht⟩ := surface_head_cons e c (hall e (by simp))
    have hstep : idxStep s e =
        (⟨s.index, s.cur, s.curOff, s.curCount + 1,
          s.off + (1 + (utf8Enc e.surface).length + 9)⟩ : IdxState) := by
      rw [idxStep]
      simp only [ht]
      rw [if_pos hcur]
      simp only [IdxState.mk.injEq, true_and]
      omega
    rw [List.foldl_cons, hstep]
    rw [ih (⟨s.index, s.cur, s.curOff, s.curCount + 1,
          s.off + (1 + (utf8Enc e.surface).length + 9)⟩ : IdxState) c
        (fun x hx => hall x (by simp [hx])) hcur]
    simp only [IdxState.mk.injEq, true_and, List.length_cons, groupBytesSize_cons]
    constructor <;> omega

theorem idxStep_group : ∀ (g : List Entry) (s : IdxState) (c : Char),
    g ≠ [] → (∀ e ∈ g, e.surface.head? = some c) → s.cur ≠ some c →
    g.foldl idxStep s =
      { index := s.index ++
          (match s.cur with
           | some ch => [(ch, s.curOff, s.curCount)]
           | none => []),
        cur := some c, curOff := s.off, curCount := g.length,
        off := s.off + groupBytesSize g } := by
  intro g s c hne hall hcur
  cases g with
  | nil => exact absurd rfl hne
  | cons e g' =>
    obtain ⟨t, ht⟩ := surface_head_cons e c (hall e (by simp))
    have hstep : idxStep s e =
        (⟨s.index ++
            (match s.cur with
             | some ch => [(ch, s.curOff, s.curCount)]
             | none => []),
          some c, s.off, 1,
          s.off + (1 + (utf8Enc e.surface).length + 9)⟩ : IdxState) := by
      rw [idxStep]
      simp only [ht]
      rw [if_neg hcur]
      cases hscur : s.cur with
      | none =>
        simp only [IdxState.mk.injEq, true_and, List.append_nil]
        omega
      | some ch =>
        simp only [IdxState.mk.injEq, true_and]
        omega
    rw [List.foldl_cons, hstep]
    rw [idxStep_run g'
        (⟨s.index ++
            (match s.cur with
             | some ch => [(ch, s.curOff, s.curCount)]
             | none => []),
          some c, s.off, 1,
          s.off + (1 + (utf8Enc e.surface).length + 9)⟩ : IdxState) c
        (fun x hx => hall x (by simp [hx])) rfl]
    simp only [IdxState.mk.injEq, true_and, List.length_cons, groupBytesSize_cons]
    constructor <;> omega

theorem idx_fold_groups : ∀ (gs : List (Char × List Entry)) (s : IdxState),
    (∀ p ∈ gs, p.2 ≠ [] ∧ ∀ e ∈ p.2, e.surface.head? = some p.1) →
    ((gs.map Prod.fst).Chain' (· ≠ ·)) →
    (∀ c0, s.cur = some c0 → ∀ p0, gs.head? = some p0 → p0.1 ≠ c0) →
    (flattenGroups gs).foldl idxStep s = idxRun s gs := by
  intro gs
  induction gs with
  | nil =>
    intro s _ _ _
    rw [flattenGroups]
    rfl
  | cons g rest ih =>
    intro s hwf hchain hcur
    have hflat : flattenGroups (g :: rest) = g.2 ++ flattenGroups rest := by
      rw [flattenGroups, List.map_cons, List.flatten_cons, flattenGroups]
    rw [hflat, List.foldl_append]
    have hg := hwf g (by simp)
    have hcurne : s.cur ≠ some g.1 := by
      intro hc
      exact hcur g.1 hc g (by simp) rfl
    rw [idxStep_group g.2 s g.1 hg.1 hg.2 hcurne]
    rw [idxRun]
    apply ih
    · intro p hp
      exact hwf p (by simp [hp])
    · rw [List.map_cons] at hchain
      exact hchain.tail
    · intro c0 hc0 p0 hp0
      simp only [Option.some.injEq] at hc0
      rw [List.map_cons] at hchain
      have := List.chain'_cons'.mp hchain
      have hne := this.1 p0.1 ?_
      · rw [← hc0]
        exact fun hc => hne hc.symm
      · cases rest with
        | nil => cases hp0
        | cons q qs =>
          simp only [List.head?_cons, Option.some.injEq] at hp0
          subst hp0
          simp

/-- Flushing the final run of `idxRun` yields `idxSpec`. -/
theorem idxRun_finalize : ∀ (gs : List (Char × List Entry)) (s : IdxState),
    ((idxRun s gs).index ++
      (match (idxRun s gs).cur with
       | some ch => [(ch, (idxRun s gs).curOff, (idxRun s gs).curCount)]
       | none => [])) =
    s.index ++
      (match s.cur with
       | some ch => [(ch, s.curOff, s.curCount)]
       | none => []) ++ idxSpec gs s.off := by
  intro gs
  induction gs with
  | nil =>
    intro s
    rw [idxRun, idxSpec]
    simp
  | cons g rest ih =>
    intro s
    rw [idxRun, ih, idxSpec]
    simp [List.append_assoc]

/-- For grouped entries, `write_binary`'s index is exactly `idxSpec`. -/
theorem buildIndex_grouped (gs : List (Char × List Entry))
    (hwf : ∀ p ∈ gs, p.2 ≠ [] ∧ ∀ e ∈ p.2, e.surface.head? = some p.1)
    (hchain : (gs.map Prod.fst).Chain' (· ≠ ·)) :
    buildIndex (flattenGroups gs) = idxSpec gs 0 := by
  rw [buildIndex]
  rw [idx_fold_groups gs ⟨[], none, 0, 0, 0⟩ hwf hchain (by intro c0 hc0 _ _; cases hc0)]
  have := idxRun_finalize gs ⟨[], none, 0, 0, 0⟩
  simp only [List.nil_append] at this
  cases hcur : (idxRun ⟨[], none, 0, 0, 0⟩ gs).cur with
  | none =>
    rw [hcur] at this
    simp only [List.append_nil] at this
    exact this
  | some ch =>
    rw [hcur] at this
    exact this

theorem groupBytesSize_append (a b : List Entry) :
    groupBytesSize (a ++ b) = groupBytesSize a + groupBytesSize b := by
  rw [groupBytesSize, groupBytesSize, groupBytesSize, List.map_append, List.sum_append]

theorem idxSpec_length : ∀ (gs : List (Char × List Entry)) (off : Nat),
    (idxSpec gs off).length = gs.length := by
  intro gs
  induction gs with
  | nil => intro off; rfl
  | cons g rest ih =>
    intro off
    rw [idxSpec, List.length_cons, ih, List.length_cons]

theorem idxSpec_keys : ∀ (gs : List (Char × List Entry)) (off : Nat),
    (idxSpec gs off).map Prod.fst = gs.map Prod.fst := by
  intro gs
  induction gs with
  | nil => intro off; rfl
  | cons g rest ih =>
    intro off
    rw [idxSpec, List.map_cons, ih, List.map_cons]

theorem flattenGroups_cons (g : Char × List Entry) (rest : List (Char × List Entry)) :
    flattenGroups (g :: rest) = g.2 ++ flattenGroups rest := by
  rw [flattenGroups, List.map_cons, List.flatten_cons, flattenGroups]

theorem flattenGroups_append (a b : List (Char × List Entry)) :
    flattenGroups (a ++ b) = flattenGroups a ++ flattenGroups b := by
  rw [flattenGroups, flattenGroups, flattenGroups, List.map_append, List.flatten_append]

theorem idxSpec_getD : ∀ (gs : List (Char × List Entry)) (off k : Nat), k < gs.length →
    (idxSpec gs off).getD k (nulChar, 0, 0) =
      ((gs.getD k (nulChar, [])).1,
       off + groupBytesSize (flattenGroups (gs.take k)),
       (gs.getD k (nulChar, [])).2.length) := by
  intro gs
  induction gs with
  | nil => intro off k h; simp at h
  | cons g rest ih =>
    intro off k h
    cases k with
    | zero =>
      rw [idxSpec]
      simp [flattenGroups, groupBytesSize]
    | succ k =>
      rw [idxSpec]
      simp only [List.getD_cons_succ]
      rw [ih (off + groupBytesSize g.2) k (by simp at h; omega)]
      have htake : (g :: rest).take (k + 1) = g :: rest.take k := rfl
      rw [htake, flattenGroups_cons, groupBytesSize_append]
      have : off + groupBytesSize g.2 + groupBytesSize (flattenGroups (rest.take k)) =
          off + (groupBytesSize g.2 + groupBytesSize (flattenGroups (rest.take k))) := by
        omega
      rw [this]

theorem idxSpec_mem (gs : List (Char × List Entry)) (off k : Nat) (h : k < gs.length) :
    ((gs.getD k (nulChar, [])).1,
     off + groupBytesSize (flattenGroups (gs.take k)),
     (gs.getD k (nulChar, [])).2.length) ∈ idxSpec gs off := by
  rw [← idxSpec_getD gs off k h]
  have hlen : k < (idxSpec gs off).length := by rw [idxSpec_length]; exact h
  rw [List.getD_eq_getElem _ _ hlen]
  exact List.getElem_mem hlen

theorem lookup_of_mem_nodup {β : Type} : ∀ (l : List (Char × β)) (c : Char) (v : β),
    (l.map Prod.fst).Nodup → (c, v) ∈ l → l.lookup c = some v := by
  intro l
  induction l with
  | nil => intro c v _ h; simp at h
  | cons p rest ih =>
    intro c v hnd hmem
    rw [List.map_cons, List.nodup_cons] at hnd
    rcases List.mem_cons.mp hmem with h | h
    · rw [← h]
      simp [List.lookup]
    · obtain ⟨pc, pv⟩ := p
      have hcne : ¬ c = pc := by
        intro hc
        apply hnd.1
        rw [hc] at h
        exact List.mem_map.mpr ⟨(pc, v), h, rfl⟩
      have hbeq : (c == pc) = false := by
        simp only [beq_eq_false_iff_ne, ne_eq]
        exact hcne
      simp only [List.lookup, hbeq]
      exact ih c v hnd.2 h

theorem entryArraySize_take (entries : List Entry) :
    ∀ m, m ≤ entries.length →
      entryArraySize ((buildRecords entries).2.take m) =
        groupBytesSize (entries.take m) := by
  intro m
  induction m with
  | zero => intro _; rfl
  | succ m ih =>
    intro hm
    have hm2 : m < entries.length := by omega
    have hmr : m < (buildRecords entries).2.length := by rw [buildRecords_length]; omega
    have htr : (buildRecords entries).2.take (m + 1) =
        (buildRecords entries).2.take m ++ [(buildRecords entries).2.getD m defRec] := by
      rw [List.getD_eq_getElem _ _ hmr]
      have := List.take_concat_get (buildRecords entries).2 m hmr
      rw [List.concat_eq_append] at this
      exact this.symm
    have hte : entries.take (m + 1) = entries.take m ++ [entries.getD m defEntry] := by
      rw [List.getD_eq_getElem _ _ hm2]
      have := List.take_concat_get entries m hm2
      rw [List.concat_eq_append] at this
      exact this.symm
    rw [htr, hte, entryArraySize_append, groupBytesSize_append, ih (by omega)]
    have hsurf := buildRecords_getD entries m hm2
    rw [show entryArraySize [(buildRecords entries).2.getD m defRec] =
      1 + ((buildRecords entries).2.getD m defRec).surf.length + 9 from by
        rw [entryArraySize]; simp]
    rw [show groupBytesSize [entries.getD m defEntry] =
      1 + (utf8Enc (entries.getD m defEntry).surface).length + 9 from by
        rw [groupBytesSize]; simp]
    rw [hsurf]

theorem parseEntryRec_recBytes (r : EntryRec) (tail : List Nat) (s : List Char)
    (hsl : r.surf.length ≤ 255)
    (hro : r.readOff < 4294967296) (hrl : r.readLen < 256)
    (hpos : r.pos_id < 65536) (hc1 : -32768 ≤ r.cost) (hc2 : r.cost < 32768)
    (hdec : utf8Dec r.surf = some s) :
    parseEntryRec (recBytes r ++ tail) =
      some (⟨s, r.pos_id, r.cost, r.readOff, r.readLen⟩, tail) := by
  have h1 : readExact 1 (recBytes r ++ tail) =
      some ([r.surf.length % 256], r.surf ++ (u32Bytes r.readOff ++
        ([r.readLen] ++ (u16Bytes r.pos_id ++ (i16Bytes r.cost ++ tail))))) := by
    have hA : recBytes r ++ tail =
        [r.surf.length % 256] ++ (r.surf ++ (u32Bytes r.readOff ++
          ([r.readLen] ++ (u16Bytes r.pos_id ++ (i16Bytes r.cost ++ tail))))) := by
      rw [recBytes]
      simp [List.append_assoc]
    rw [hA]
    exact readExact_append 1 _ _ rfl
  have hslen : [r.surf.length % 256].getD 0 0 = r.surf.length := by
    simp [List.getD]
    omega
  have h2 : readExact r.surf.length (r.surf ++ (u32Bytes r.readOff ++
      ([r.readLen] ++ (u16Bytes r.pos_id ++ (i16Bytes r.cost ++ tail))))) =
      some (r.surf, u32Bytes r.readOff ++
        ([r.readLen] ++ (u16Bytes r.pos_id ++ (i16Bytes r.cost ++ tail)))) :=
    readExact_append _ _ _ rfl
  have h3 : readExact 9 (u32Bytes r.readOff ++ ([r.readLen] ++ (u16Bytes r.pos_id ++
      (i16Bytes r.cost ++ tail)))) =
      some (u32Bytes r.readOff ++ ([r.readLen] ++ (u16Bytes r.pos_id ++ i16Bytes r.cost)),
        tail) := by
    have hB : u32Bytes r.readOff ++ ([r.readLen] ++ (u16Bytes r.pos_id ++
        (i16Bytes r.cost ++ tail))) =
        (u32Bytes r.readOff ++ ([r.readLen] ++ (u16Bytes r.pos_id ++ i16Bytes r.cost))) ++
          tail := by
      simp [List.append_assoc]
    rw [hB]
    exact readExact_append 9 _ _ (by simp [u32Bytes, u16Bytes, i16Bytes])
  rw [parseEntryRec]
  simp only [h1]
  simp only [hslen, h2]
  simp only [h3]
  simp only [hdec]
  simp only [u32Bytes, u16Bytes, i16Bytes, List.cons_append, List.nil_append,
    List.getD_cons_zero, List.getD_cons_succ]
  rw [readU32_u32Bytes r.readOff hro, readU16_u16Bytes r.pos_id hpos,
    readU16_u16Bytes (i16ToNat r.cost) (i16ToNat_lt r.cost),
    i16OfNat_i16ToNat r.cost hc1 hc2]

/-- The runtime entry that record `i` of the compiled dictionary decodes to. -/
def toRtEntry (entries : List Entry) (i : Nat) : DictEntryRt :=
  ⟨(entries.getD i defEntry).surface, (entries.getD i defEntry).pos_id,
   (entries.getD i defEntry).cost,
   ((buildRecords entries).2.getD i defRec).readOff,
   ((buildRecords entries).2.getD i defRec).readLen⟩

/-- The block of runtime entries `[a, a + cnt)`. -/
def expectedRts (entries : List Entry) : Nat → Nat → List DictEntryRt
  | _, 0 => []
  | a, cnt + 1 => toRtEntry entries a :: expectedRts entries (a + 1) cnt

/-- A well-formedness bundle on compiler input: surfaces encode to 1..255
    bytes, pos ids fit `u16`, costs fit `i16`. -/
def EntryOk (e : Entry) : Prop :=
  (utf8Enc e.surface).length ≤ 255 ∧ e.pos_id < 65536 ∧
    -32768 ≤ e.cost ∧ e.cost < 32768

theorem parseEntries_drop (entries : List Entry) (pool : List Nat)
    (hok : ∀ e ∈ entries, EntryOk e) :
    ∀ cnt a, a + cnt ≤ entries.length →
      parseEntries cnt (entrySegment ((buildRecords entries).2.drop a) ++ pool) =
        some (expectedRts entries a cnt) := by
  intro cnt
  induction cnt with
  | zero => intro a _; rfl
  | succ cnt ih =>
    intro a ha
    have ha2 : a < entries.length := by omega
    have har : a < (buildRecords entries).2.length := by rw [buildRecords_length]; omega
    have hdrop : (buildRecords entries).2.drop a =
        (buildRecords entries).2.getD a defRec :: (buildRecords entries).2.drop (a + 1) := by
      rw [List.getD_eq_getElem _ _ har]
      exact List.drop_eq_getElem_cons har
    have hgd := buildRecords_getD entries a ha2
    have hmem : entries.getD a defEntry ∈ entries := by
      rw [List.getD_eq_getElem _ _ ha2]
      exact List.getElem_mem ha2
    have hoka := hok _ hmem
    have hrec := parseEntryRec_recBytes ((buildRecords entries).2.getD a defRec)
      (entrySegment ((buildRecords entries).2.drop (a + 1)) ++ pool)
      (entries.getD a defEntry).surface
      (by rw [hgd]; exact hoka.1)
      (by rw [hgd]; exact Nat.mod_lt _ (by omega))
      (by rw [hgd]; exact Nat.mod_lt _ (by omega))
      (by rw [hgd]; exact hoka.2.1)
      (by rw [hgd]; exact hoka.2.2.1)
      (by rw [hgd]; exact hoka.2.2.2)
      (by rw [hgd]; exact utf8Dec_utf8Enc _)
    rw [hdrop]
    rw [show entrySegment ((buildRecords entries).2.getD a defRec ::
        (buildRecords entries).2.drop (a + 1)) =
      recBytes ((buildRecords entries).2.getD a defRec) ++
        entrySegment ((buildRecords entries).2.drop (a + 1)) from by
      rw [entrySegment, List.flatMap_cons]; rfl]
    rw [List.append_assoc, parseEntries]
    simp only [hrec]
    rw [ih (a + 1) (by omega)]
    rw [Option.map_some']
    rw [expectedRts]
    have hfields : (⟨(entries.getD a defEntry).surface,
        ((buildRecords entries).2.getD a defRec).pos_id,
        ((buildRecords entries).2.getD a defRec).cost,
        ((buildRecords entries).2.getD a defRec).readOff,
        ((buildRecords entries).2.getD a defRec).readLen⟩ : DictEntryRt) =
        toRtEntry entries a := by
      rw [toRtEntry]
      rw [hgd]
    rw [hfields]

/-- Default runtime entry used for total indexing. -/
def defRt : DictEntryRt := ⟨[], 0, 0, 0, 0⟩

theorem expectedRts_length (entries : List Entry) :
    ∀ cnt a, (expectedRts entries a cnt).length = cnt := by
  intro cnt
  induction cnt with
  | zero => intro a; rfl
  | succ cnt ih =>
    intro a
    rw [expectedRts, List.length_cons, ih]

theorem expectedRts_getD (entries : List Entry) :
    ∀ cnt a j, j < cnt →
      (expectedRts entries a cnt).getD j defRt = toRtEntry entries (a + j) := by
  intro cnt
  induction cnt with
  | zero => intro a j h; omega
  | succ cnt ih =>
    intro a j h
    cases j with
    | zero => rw [expectedRts, List.getD_cons_zero, Nat.add_zero]
    | succ j =>
      rw [expectedRts, List.getD_cons_succ, ih (a + 1) j (by omega)]
      rw [show a + 1 + j = a + (j + 1) from by omega]

theorem readIndexEntries_spec : ∀ (idx : List (Char × Nat × Nat))
    (acc : List (Char × Nat × Nat)) (rest : List Nat),
    (∀ k ∈ idx, k.2.1 < 4294967296 ∧ k.2.2 < 65536) →
    readIndexEntries idx.length
      (idx.flatMap (fun k => u32Bytes k.1.toNat ++ u32Bytes k.2.1 ++ u16Bytes k.2.2) ++ rest)
      acc = .ok (idx.reverse ++ acc, rest) := by
  intro idx
  induction idx with
  | nil => intro acc rest _; rfl
  | cons k idx' ih =>
    intro acc rest hb
    obtain ⟨c, off, cnt⟩ := k
    have hk := hb (c, off, cnt) (by simp)
    have hctn : c.toNat < 4294967296 := by
      rcases char_scalar_valid c with h | h <;> omega
    have hstream : (((c, off, cnt) :: idx').flatMap
          (fun k => u32Bytes k.1.toNat ++ u32Bytes k.2.1 ++ u16Bytes k.2.2)) ++ rest =
        u32Bytes c.toNat ++ (u32Bytes off ++ (u16Bytes cnt ++
          (idx'.flatMap (fun k => u32Bytes k.1.toNat ++ u32Bytes k.2.1 ++ u16Bytes k.2.2) ++
            rest))) := by
      rw [List.flatMap_cons]
      simp [List.append_assoc]
    have h1 : readExact 4 (((c, off, cnt) :: idx').flatMap
          (fun k => u32Bytes k.1.toNat ++ u32Bytes k.2.1 ++ u16Bytes k.2.2) ++ rest) =
        some (u32Bytes c.toNat, u32Bytes off ++ (u16Bytes cnt ++
          (idx'.flatMap (fun k => u32Bytes k.1.toNat ++ u32Bytes k.2.1 ++ u16Bytes k.2.2) ++
            rest))) := by
      rw [hstream]
      rw [show u32Bytes c.toNat ++ (u32Bytes off ++ (u16Bytes cnt ++
          (idx'.flatMap (fun k => u32Bytes k.1.toNat ++ u32Bytes k.2.1 ++ u16Bytes k.2.2) ++
            rest))) =
        u32Bytes c.toNat ++ (u32Bytes off ++ (u16Bytes cnt ++
          (idx'.flatMap (fun k => u32Bytes k.1.toNat ++ u32Bytes k.2.1 ++ u16Bytes k.2.2) ++
            rest))) from rfl]
      exact readExact_append 4 _ _ rfl
    have hrd : readU32 ((u32Bytes c.toNat).getD 0 0) ((u32Bytes c.toNat).getD 1 0)
        ((u32Bytes c.toNat).getD 2 0) ((u32Bytes c.toNat).getD 3 0) = c.toNat := by
      simp only [u32Bytes, List.getD_cons_zero, List.getD_cons_succ]
      exact readU32_u32Bytes c.toNat hctn
    have h2 : readExact 4 (u32Bytes off ++ (u16Bytes cnt ++
        (idx'.flatMap (fun k => u32Bytes k.1.toNat ++ u32Bytes k.2.1 ++ u16Bytes k.2.2) ++
          rest))) =
        some (u32Bytes off, u16Bytes cnt ++
          (idx'.flatMap (fun k => u32Bytes k.1.toNat ++ u32Bytes k.2.1 ++ u16Bytes k.2.2) ++
            rest)) :=
      readExact_append 4 _ _ rfl
    have h3 : readExact 2 (u16Bytes cnt ++
        (idx'.flatMap (fun k => u32Bytes k.1.toNat ++ u32Bytes k.2.1 ++ u16Bytes k.2.2) ++
          rest)) =
        some (u16Bytes cnt,
          idx'.flatMap (fun k => u32Bytes k.1.toNat ++ u32Bytes k.2.1 ++ u16Bytes k.2.2) ++
            rest) :=
      readExact_append 2 _ _ rfl
    rw [List.length_cons, readIndexEntries]
    simp only [h1]
    rw [hrd]
    rw [if_neg (by rcases char_scalar_valid c with h | h <;> omega)]
    rw [if_neg (by rcases char_scalar_valid c with h | h <;> omega)]
    simp only [h2, h3]
    have hoffrd : readU32 ((u32Bytes off).getD 0 0) ((u32Bytes off).getD 1 0)
        ((u32Bytes off).getD 2 0) ((u32Bytes off).getD 3 0) = off := by
      simp only [u32Bytes, List.getD_cons_zero, List.getD_cons_succ]
      exact readU32_u32Bytes off hk.1
    have hcntrd : readU16 ((u16Bytes cnt).getD 0 0) ((u16Bytes cnt).getD 1 0) = cnt := by
      simp only [u16Bytes, List.getD_cons_zero, List.getD_cons_succ]
      exact readU16_u16Bytes cnt hk.2
    rw [hoffrd, hcntrd, Char.ofNat_toNat]
    rw [ih ((c, off, cnt) :: acc) rest (fun x hx => hb x (by simp [hx]))]
    rw [List.reverse_cons, List.append_assoc]
    rfl

theorem headerBytes_take4 (N soff S : Nat) :
    (headerBytes N soff S).take 4 = [77, 85, 67, 65] := rfl

theorem headerBytes_S (N soff S : Nat) (hS : S < 65536) :
    readU16 ((headerBytes N soff S).getD 6 0) ((headerBytes N soff S).getD 7 0) = S := by
  have h6 : (headerBytes N soff S).getD 6 0 = S % 256 := rfl
  have h7 : (headerBytes N soff S).getD 7 0 = S / 256 % 256 := rfl
  rw [h6, h7]
  exact readU16_u16Bytes S hS

theorem headerBytes_N (N soff S : Nat) (hN : N < 4294967296) :
    readU32 ((headerBytes N soff S).getD 8 0) ((headerBytes N soff S).getD 9 0)
      ((headerBytes N soff S).getD 10 0) ((headerBytes N soff S).getD 11 0) = N := by
  have h8 : (headerBytes N soff S).getD 8 0 = N % 256 := rfl
  have h9 : (headerBytes N soff S).getD 9 0 = N / 256 % 256 := rfl
  have h10 : (headerBytes N soff S).getD 10 0 = N / 65536 % 256 := rfl
  have h11 : (headerBytes N soff S).getD 11 0 = N / 16777216 % 256 := rfl
  rw [h8, h9, h10, h11]
  exact readU32_u32Bytes N hN

theorem headerBytes_soff (N soff S : Nat) (hso : soff < 4294967296) :
    readU32 ((headerBytes N soff S).getD 12 0) ((headerBytes N soff S).getD 13 0)
      ((headerBytes N soff S).getD 14 0) ((headerBytes N soff S).getD 15 0) = soff := by
  have h12 : (headerBytes N soff S).getD 12 0 = soff % 256 := rfl
  have h13 : (headerBytes N soff S).getD 13 0 = soff / 256 % 256 := rfl
  have h14 : (headerBytes N soff S).getD 14 0 = soff / 65536 % 256 := rfl
  have h15 : (headerBytes N soff S).getD 15 0 = soff / 16777216 % 256 := rfl
  rw [h12, h13, h14, h15]
  exact readU32_u32Bytes soff hso

theorem mem_flattenGroups (gs : List (Char × List Entry)) (p : Char × List Entry)
    (e : Entry) (hp : p ∈ gs) (he : e ∈ p.2) : e ∈ flattenGroups gs := by
  rw [flattenGroups]
  exact List.mem_flatten.mpr ⟨p.2, List.mem_map.mpr ⟨p, hp, rfl⟩, he⟩

theorem flattenGroups_take_split (gs : List (Char × List Entry)) (k : Nat) :
    flattenGroups gs = flattenGroups (gs.take k) ++ flattenGroups (gs.drop k) := by
  conv_lhs => rw [← List.take_append_drop k gs]
  rw [flattenGroups_append]

theorem flattenGroups_take_len_le (gs : List (Char × List Entry)) (k : Nat) :
    (flattenGroups (gs.take k)).length ≤ (flattenGroups gs).length := by
  rw [flattenGroups_take_split gs k, List.length_append]
  omega

theorem entries_take_flatten (gs : List (Char × List Entry)) (k : Nat) :
    (flattenGroups gs).take (flattenGroups (gs.take k)).length =
      flattenGroups (gs.take k) := by
  rw [flattenGroups_take_split gs k]
  exact List.take_left _ _

theorem gs_drop_cons (gs : List (Char × List Entry)) (k : Nat) (h : k < gs.length) :
    gs.drop k = gs.getD k (nulChar, []) :: gs.drop (k + 1) := by
  rw [List.getD_eq_getElem _ _ h]
  exact List.drop_eq_getElem_cons h

theorem flattenGroups_take_succ (gs : List (Char × List Entry)) (k : Nat)
    (h : k < gs.length) :
    flattenGroups (gs.take (k + 1)) =
      flattenGroups (gs.take k) ++ (gs.getD k (nulChar, [])).2 := by
  have htake : gs.take (k + 1) = gs.take k ++ [gs[k]] := by
    have := List.take_concat_get gs k h
    rw [List.concat_eq_append] at this
    exact this.symm
  rw [htake, flattenGroups_append]
  rw [List.getD_eq_getElem _ _ h]
  rw [show flattenGroups [gs[k]] = gs[k].2 from by rw [flattenGroups]; simp]

theorem flattenGroups_getD (gs : List (Char × List Entry)) (k j : Nat)
    (hk : k < gs.length) (hj : j < (gs.getD k (nulChar, [])).2.length) :
    (flattenGroups gs).getD ((flattenGroups (gs.take k)).length + j) defEntry =
      (gs.getD k (nulChar, [])).2.getD j defEntry := by
  rw [flattenGroups_take_split gs k]
  rw [List.getD_append_right _ _ _ _ (by omega)]
  rw [show (flattenGroups (gs.take k)).length + j - (flattenGroups (gs.take k)).length = j
    from by omega]
  rw [gs_drop_cons gs k hk, flattenGroups_cons]
  exact List.getD_append _ _ _ _ hj

theorem idxSpec_mem_elim (gs : List (Char × List Entry)) (off : Nat)
    (x : Char × Nat × Nat) (hx : x ∈ idxSpec gs off) :
    ∃ k, k < gs.length ∧
      x = ((gs.getD k (nulChar, [])).1,
           off + groupBytesSize (flattenGroups (gs.take k)),
           (gs.getD k (nulChar, [])).2.length) := by
  obtain ⟨i, hi, hgx⟩ := List.mem_iff_getElem.mp hx
  have hlen : i < gs.length := by rw [← idxSpec_length gs off]; exact hi
  refine ⟨i, hlen, ?_⟩
  rw [← hgx, ← List.getD_eq_getElem _ (nulChar, 0, 0) hi]
  exact idxSpec_getD gs off i hlen

/-- Every group's byte offset is bounded by the whole entry-array size. -/
theorem groupOffset_le (gs : List (Char × List Entry)) (k : Nat) :
    groupBytesSize (flattenGroups (gs.take k)) ≤
      entryArraySize (buildRecords (flattenGroups gs)).2 := by
  have hm : (flattenGroups (gs.take k)).length ≤ (flattenGroups gs).length :=
    flattenGroups_take_len_le gs k
  have h1 : groupBytesSize (flattenGroups (gs.take k)) =
      entryArraySize ((buildRecords (flattenGroups gs)).2.take
        (flattenGroups (gs.take k)).length) := by
    rw [entryArraySize_take _ _ hm, entries_take_flatten]
  rw [h1]
  conv_rhs => rw [← List.take_append_drop (flattenGroups (gs.take k)).length
    (buildRecords (flattenGroups gs)).2]
  rw [entryArraySize_append]
  omega

/-- `Dictionary::load` applied to the exact bytes `write_binary` emits for a
    grouped, in-range entry list: it succeeds and reproduces the header
    fields, matrix and first-character index. -/
theorem loadDict_writeBinary (gs : List (Char × List Entry)) (matrix : List Int) (S : Nat)
    (hwf : ∀ p ∈ gs, p.2 ≠ [] ∧ ∀ e ∈ p.2, e.surface.head? = some p.1)
    (hnd : (gs.map Prod.fst).Nodup)
    (hmx : ∀ v ∈ matrix, -32768 ≤ v ∧ v < 32768)
    (hms : matrix.length = S * S) (hS : S < 65536)
    (hN : (flattenGroups gs).length < 4294967296)
    (hso : entryArraySize (buildRecords (flattenGroups gs)).2 < 4294967296)
    (hgs : gs.length < 4294967296)
    (hcnt : ∀ p ∈ gs, p.2.length < 65536) :
    loadDict (writeBinary (flattenGroups gs) matrix S) =
      .ok ⟨entrySegment (buildRecords (flattenGroups gs)).2 ++
             (buildRecords (flattenGroups gs)).1,
           entryArraySize (buildRecords (flattenGroups gs)).2,
           (flattenGroups gs).length,
           (idxSpec gs 0).reverse,
           matrix, S⟩ := by
  have hbi : buildIndex (flattenGroups gs) = idxSpec gs 0 :=
    buildIndex_grouped gs hwf hnd.chain'
  have hfile : writeBinary (flattenGroups gs) matrix S =
      headerBytes (flattenGroups gs).length
          (entryArraySize (buildRecords (flattenGroups gs)).2) S ++
        (matrix.flatMap i16Bytes ++
          (u32Bytes gs.length ++
            ((idxSpec gs 0).flatMap
                (fun k => u32Bytes k.1.toNat ++ u32Bytes k.2.1 ++ u16Bytes k.2.2) ++
              (entrySegment (buildRecords (flattenGroups gs)).2 ++
                (buildRecords (flattenGroups gs)).1)))) := by
    rw [writeBinary, hbi, idxSpec_length]
  rw [hfile, loadDict]
  have h16 := readExact_append 16
    (headerBytes (flattenGroups gs).length
      (entryArraySize (buildRecords (flattenGroups gs)).2) S)
    (matrix.flatMap i16Bytes ++
      (u32Bytes gs.length ++
        ((idxSpec gs 0).flatMap
            (fun k => u32Bytes k.1.toNat ++ u32Bytes k.2.1 ++ u16Bytes k.2.2) ++
          (entrySegment (buildRecords (flattenGroups gs)).2 ++
            (buildRecords (flattenGroups gs)).1)))) rfl
  simp only [h16]
  rw [if_neg (by rw [headerBytes_take4]; exact fun h => h rfl)]
  rw [headerBytes_S _ _ _ hS]
  have hm2 := readExact_append (S * S * 2) (matrix.flatMap i16Bytes)
    (u32Bytes gs.length ++
      ((idxSpec gs 0).flatMap
          (fun k => u32Bytes k.1.toNat ++ u32Bytes k.2.1 ++ u16Bytes k.2.2) ++
        (entrySegment (buildRecords (flattenGroups gs)).2 ++
          (buildRecords (flattenGroups gs)).1)))
    (by rw [flatMap_i16_length, hms])
  simp only [hm2]
  have h4 := readExact_append 4 (u32Bytes gs.length)
    ((idxSpec gs 0).flatMap
        (fun k => u32Bytes k.1.toNat ++ u32Bytes k.2.1 ++ u16Bytes k.2.2) ++
      (entrySegment (buildRecords (flattenGroups gs)).2 ++
        (buildRecords (flattenGroups gs)).1)) rfl
  simp only [h4]
  have hKrd : readU32 ((u32Bytes gs.length).getD 0 0) ((u32Bytes gs.length).getD 1 0)
      ((u32Bytes gs.length).getD 2 0) ((u32Bytes gs.length).getD 3 0) = gs.length := by
    simp only [u32Bytes, List.getD_cons_zero, List.getD_cons_succ]
    exact readU32_u32Bytes gs.length hgs
  rw [hKrd]
  have hbounds : ∀ x ∈ idxSpec gs 0, x.2.1 < 4294967296 ∧ x.2.2 < 65536 := by
    intro x hx
    obtain ⟨k, hk, hxe⟩ := idxSpec_mem_elim gs 0 x hx
    rw [hxe]
    constructor
    · have := groupOffset_le gs k
      simp only [Nat.zero_add]
      omega
    · have hmem : gs.getD k (nulChar, []) ∈ gs := by
        rw [List.getD_eq_getElem _ _ hk]
        exact List.getElem_mem hk
      exact hcnt _ hmem
  have hidx := readIndexEntries_spec (idxSpec gs 0) []
    (entrySegment (buildRecords (flattenGroups gs)).2 ++
      (buildRecords (flattenGroups gs)).1) hbounds
  rw [idxSpec_length] at hidx
  simp only [hidx]
  rw [List.append_nil, headerBytes_N _ _ _ hN, headerBytes_soff _ _ _ hso,
    parseI16s_roundtrip matrix hmx]

/-- The `LoadedDict` that loading a compiled grouped dictionary produces. -/
def loadedOf (gs : List (Char × List Entry)) (matrix : List Int) (S : Nat) : LoadedDict :=
  ⟨entrySegment (buildRecords (flattenGroups gs)).2 ++ (buildRecords (flattenGroups gs)).1,
   entryArraySize (buildRecords (flattenGroups gs)).2,
   (flattenGroups gs).length,
   (idxSpec gs 0).reverse, matrix, S⟩

theorem bulkRead_loadedOf (gs : List (Char × List Entry)) (matrix : List Int) (S : Nat)
    (hnd : (gs.map Prod.fst).Nodup)
    (hok : ∀ e ∈ flattenGroups gs, EntryOk e)
    (k : Nat) (hk : k < gs.length) :
    bulkReadEntries (loadedOf gs matrix S) (gs.getD k (nulChar, [])).1 =
      .ok (expectedRts (flattenGroups gs) (flattenGroups (gs.take k)).length
            (gs.getD k (nulChar, [])).2.length) := by
  have hnodup : (((idxSpec gs 0).reverse).map Prod.fst).Nodup := by
    rw [List.map_reverse, idxSpec_keys]
    exact List.nodup_reverse.mpr hnd
  have hmem : ((gs.getD k (nulChar, [])).1,
      0 + groupBytesSize (flattenGroups (gs.take k)),
      (gs.getD k (nulChar, [])).2.length) ∈ (idxSpec gs 0).reverse :=
    List.mem_reverse.mpr (idxSpec_mem gs 0 k hk)
  have hlook := lookup_of_mem_nodup ((idxSpec gs 0).reverse) (gs.getD k (nulChar, [])).1
    (0 + groupBytesSize (flattenGroups (gs.take k)), (gs.getD k (nulChar, [])).2.length)
    hnodup hmem
  have hmle : (flattenGroups (gs.take k)).length ≤ (flattenGroups gs).length :=
    flattenGroups_take_len_le gs k
  have hoff : groupBytesSize (flattenGroups (gs.take k)) =
      entryArraySize ((buildRecords (flattenGroups gs)).2.take
        (flattenGroups (gs.take k)).length) := by
    rw [entryArraySize_take _ _ hmle, entries_take_flatten]
  have hoffle : entryArraySize ((buildRecords (flattenGroups gs)).2.take
      (flattenGroups (gs.take k)).length) ≤
      (entrySegment (buildRecords (flattenGroups gs)).2).length := by
    rw [entrySegment_length]
    conv_rhs => rw [← List.take_append_drop (flattenGroups (gs.take k)).length
      (buildRecords (flattenGroups gs)).2]
    rw [entryArraySize_append]
    omega
  have hsegsplit : entrySegment (buildRecords (flattenGroups gs)).2 =
      entrySegment ((buildRecords (flattenGroups gs)).2.take
        (flattenGroups (gs.take k)).length) ++
      entrySegment ((buildRecords (flattenGroups gs)).2.drop
        (flattenGroups (gs.take k)).length) := by
    conv_lhs => rw [← List.take_append_drop (flattenGroups (gs.take k)).length
      (buildRecords (flattenGroups gs)).2]
    rw [entrySegment_append]
  have hdatadrop : (entrySegment (buildRecords (flattenGroups gs)).2 ++
        (buildRecords (flattenGroups gs)).1).drop
      (entryArraySize ((buildRecords (flattenGroups gs)).2.take
        (flattenGroups (gs.take k)).length)) =
      entrySegment ((buildRecords (flattenGroups gs)).2.drop
        (flattenGroups (gs.take k)).length) ++ (buildRecords (flattenGroups gs)).1 := by
    rw [List.drop_append_of_le_length hoffle]
    rw [hsegsplit, ← entrySegment_length, List.drop_left]
  have hsucc : (flattenGroups (gs.take (k + 1))).length =
      (flattenGroups (gs.take k)).length + (gs.getD k (nulChar, [])).2.length := by
    rw [flattenGroups_take_succ gs k hk, List.length_append]
  have hcle : (flattenGroups (gs.take k)).length + (gs.getD k (nulChar, [])).2.length ≤
      (flattenGroups gs).length := by
    rw [← hsucc]
    exact flattenGroups_take_len_le gs (k + 1)
  have hparse := parseEntries_drop (flattenGroups gs) (buildRecords (flattenGroups gs)).1
    hok (gs.getD k (nulChar, [])).2.length (flattenGroups (gs.take k)).length hcle
  rw [bulkReadEntries]
  simp only [loadedOf]
  simp only [hlook]
  simp only [Nat.zero_add, hoff, hdatadrop]
  simp only [hparse]

/-- `read_reading` on the compiled pool recovers entry `i`'s reading. -/
theorem readReading_loadedOf (gs : List (Char × List Entry)) (matrix : List Int) (S : Nat)
    (hrd : ∀ e ∈ flattenGroups gs, (utf8Enc e.reading).length < 256)
    (hpool : (buildRecords (flattenGroups gs)).1.length < 4294967296)
    (i : Nat) (hi : i < (flattenGroups gs).length) :
    readReading (loadedOf gs matrix S) (toRtEntry (flattenGroups gs) i).reading_offset
        (toRtEntry (flattenGroups gs) i).reading_len =
      .ok ((flattenGroups gs).getD i defEntry).reading := by
  have hgd := buildRecords_getD (flattenGroups gs) i hi
  have hmem : (flattenGroups gs).getD i defEntry ∈ flattenGroups gs := by
    rw [List.getD_eq_getElem _ _ hi]
    exact List.getElem_mem hi
  have hrdi := hrd _ hmem
  obtain ⟨q, hq⟩ := buildRecords_pool_prefix (flattenGroups gs) i
  have hple : (buildRecords ((flattenGroups gs).take i)).1.length ≤
      (buildRecords (flattenGroups gs)).1.length := by
    rw [hq, List.length_append]
    omega
  have hoffmod : ((buildRecords ((flattenGroups gs).take i)).1.length -
      findOverlap (buildRecords ((flattenGroups gs).take i)).1
        (utf8Enc ((flattenGroups gs).getD i defEntry).reading)) % 4294967296 =
      (buildRecords ((flattenGroups gs).take i)).1.length -
        findOverlap (buildRecords ((flattenGroups gs).take i)).1
          (utf8Enc ((flattenGroups gs).getD i defEntry).reading) := by
    apply Nat.mod_eq_of_lt
    omega
  have hlenmod : (utf8Enc ((flattenGroups gs).getD i defEntry).reading).length % 256 =
      (utf8Enc ((flattenGroups gs).getD i defEntry).reading).length :=
    Nat.mod_eq_of_lt hrdi
  have hro : (toRtEntry (flattenGroups gs) i).reading_offset =
      (buildRecords ((flattenGroups gs).take i)).1.length -
        findOverlap (buildRecords ((flattenGroups gs).take i)).1
          (utf8Enc ((flattenGroups gs).getD i defEntry).reading) := by
    rw [toRtEntry]
    simp only [hgd]
    exact hoffmod
  have hrl : (toRtEntry (flattenGroups gs) i).reading_len =
      (utf8Enc ((flattenGroups gs).getD i defEntry).reading).length := by
    rw [toRtEntry]
    simp only [hgd]
    exact hlenmod
  have hseg := buildRecords_segment (flattenGroups gs) i hi
  rw [readReading, hro, hrl]
  have hsoff : (loadedOf gs matrix S).strings_offset =
      (entrySegment (buildRecords (flattenGroups gs)).2).length := by
    rw [entrySegment_length]
    rfl
  rw [show (loadedOf gs matrix S).data =
    entrySegment (buildRecords (flattenGroups gs)).2 ++ (buildRecords (flattenGroups gs)).1
    from rfl]
  rw [hsoff, List.drop_append]
  rw [hseg.1]
  have hlen : ¬ ((utf8Enc ((flattenGroups gs).getD i defEntry).reading).length <
      (utf8Enc ((flattenGroups gs).getD i defEntry).reading).length) := by omega
  rw [if_neg hlen, utf8Dec_utf8Enc]

instance (e : Entry) : Decidable (EntryOk e) := by
  unfold EntryOk
  infer_instance

theorem sum_group_lengths (gs : List (Char × List Entry)) :
    (gs.map (fun p => p.2.length)).sum = (flattenGroups gs).length := by
  rw [flattenGroups, List.length_flatten, List.map_map]
  rfl

/-- C2: for every grouped, in-range entry list (groups keyed by distinct
    first characters, every surface 1–255 UTF-8 bytes starting with the
    group key, `pos_id` a `u16`, cost an `i16`, readings under 256 bytes,
    and all section sizes within their integer widths), compiling with
    `write_binary` and reloading with `Dictionary::load` succeeds; the
    loaded dictionary reports exactly `num_entries` entries (the per-block
    counts sum to it), and reading every per-first-character block with
    `bulk_read_entries` and every reading with `read_reading` reproduces
    each compiled entry's surface, `pos_id`, word cost and reading. -/
theorem claim_C2 (gs : List (Char × List Entry)) (matrix : List Int) (S : Nat)
    (hwf : ∀ p ∈ gs, p.2 ≠ [] ∧ ∀ e ∈ p.2, e.surface.head? = some p.1)
    (hnd : (gs.map Prod.fst).Nodup)
    (hok : ∀ e ∈ flattenGroups gs, EntryOk e)
    (hrd : ∀ e ∈ flattenGroups gs, (utf8Enc e.reading).length < 256)
    (hmx : ∀ v ∈ matrix, -32768 ≤ v ∧ v < 32768)
    (hms : matrix.length = S * S) (hS : S < 65536)
    (hN : (flattenGroups gs).length < 4294967296)
    (hso : entryArraySize (buildRecords (flattenGroups gs)).2 < 4294967296)
    (hgs : gs.length < 4294967296)
    (hcnt : ∀ p ∈ gs, p.2.length < 65536)
    (hpool : (buildRecords (flattenGroups gs)).1.length < 4294967296) :
    ∃ d, loadDict (writeBinary (flattenGroups gs) matrix S) = .ok d ∧
      d.num_entries = (flattenGroups gs).length ∧
      (gs.map (fun p => p.2.length)).sum = d.num_entries ∧
      ∀ k, k < gs.length →
        ∃ es, bulkReadEntries d (gs.getD k (nulChar, [])).1 = .ok es ∧
          es.length = (gs.getD k (nulChar, [])).2.length ∧
          ∀ j, j < es.length →
            (es.getD j defRt).surface =
              ((gs.getD k (nulChar, [])).2.getD j defEntry).surface ∧
            (es.getD j defRt).pos_id =
              ((gs.getD k (nulChar, [])).2.getD j defEntry).pos_id ∧
            (es.getD j defRt).word_cost =
              ((gs.getD k (nulChar, [])).2.getD j defEntry).cost ∧
            readReading d (es.getD j defRt).reading_offset
                (es.getD j defRt).reading_len =
              .ok ((gs.getD k (nulChar, [])).2.getD j defEntry).reading := by
  refine ⟨loadedOf gs matrix S,
    loadDict_writeBinary gs matrix S hwf hnd hmx hms hS hN hso hgs hcnt,
    rfl, sum_group_lengths gs, ?_⟩
  intro k hk
  refine ⟨expectedRts (flattenGroups gs) (flattenGroups (gs.take k)).length
      (gs.getD k (nulChar, [])).2.length,
    bulkRead_loadedOf gs matrix S hnd hok k hk,
    expectedRts_length _ _ _, ?_⟩
  intro j hj
  rw [expectedRts_length] at hj
  have hsucc : (flattenGroups (gs.take (k + 1))).length =
      (flattenGroups (gs.take k)).length + (gs.getD k (nulChar, [])).2.length := by
    rw [flattenGroups_take_succ gs k hk, List.length_append]
  have hij : (flattenGroups (gs.take k)).length + j < (flattenGroups gs).length := by
    have := flattenGroups_take_len_le gs (k + 1)
    omega
  have hget := expectedRts_getD (flattenGroups gs) (gs.getD k (nulChar, [])).2.length
    (flattenGroups (gs.take k)).length j hj
  have hfg := flattenGroups_getD gs k j hk hj
  rw [hget]
  refine ⟨?_, ?_, ?_, ?_⟩
  · rw [toRtEntry, hfg]
  · rw [toRtEntry, hfg]
  · rw [toRtEntry, hfg]
  · rw [readReading_loadedOf gs matrix S hrd hpool
      ((flattenGroups (gs.take k)).length + j) hij, hfg]

/-- One-group concrete dictionary for the C2 witness. -/
def c2gs : List (Char × List Entry) :=
  [(Char.ofNat 23665, [⟨[Char.ofNat 23665], 1, 3, [Char.ofNat 12420, Char.ofNat 12414]⟩])]

theorem claim_C2_witness :
    ∃ d, loadDict (writeBinary (flattenGroups c2gs) [(0 : Int)] 1) = .ok d ∧
      d.num_entries = (flattenGroups c2gs).length ∧
      (c2gs.map (fun p => p.2.length)).sum = d.num_entries ∧
      ∀ k, k < c2gs.length →
        ∃ es, bulkReadEntries d (c2gs.getD k (nulChar, [])).1 = .ok es ∧
          es.length = (c2gs.getD k (nulChar, [])).2.length ∧
          ∀ j, j < es.length →
            (es.getD j defRt).surface =
              ((c2gs.getD k (nulChar, [])).2.getD j defEntry).surface ∧
            (es.getD j defRt).pos_id =
              ((c2gs.getD k (nulChar, [])).2.getD j defEntry).pos_id ∧
            (es.getD j defRt).word_cost =
              ((c2gs.getD k (nulChar, [])).2.getD j defEntry).cost ∧
            readReading d (es.getD j defRt).reading_offset
                (es.getD j defRt).reading_len =
              .ok ((c2gs.getD k (nulChar, [])).2.getD j defEntry).reading :=
  claim_C2 c2gs [(0 : Int)] 1 (by decide) (by decide) (by decide) (by decide)
    (by decide) (by decide) (by decide) (by decide) (by decide) (by decide)
    (by decide) (by decide)

end Mucab
